import Mathlib

/-!
Verification of the core of `bible_viewer.c` (Bible Verse Viewer).

The C sources are shallowly embedded: files are `List Char` byte streams,
the fixed-size C arrays become Lean lists with explicit capacity checks,
and every operation of the core (offset indexing, streaming search,
word-wrap, bookmark store, settings store, bounds-table picker) is a
computable Lean function translated line by line from the C.
-/

namespace BibleViewer

/-- `MAX_VERSES` from bible_viewer.c: capacity of the verse index. -/
def MAX_VERSES : Nat := 600

/-- `REF_LEN` from bible_viewer.c: chars stored for a cached reference. -/
def REF_LEN : Nat := 24

/-- `LINE_BUF_LEN` from bible_viewer.c: max bytes of one line buffer. -/
def LINE_BUF_LEN : Nat := 320

/-- `MAX_SEARCH_RESULTS` from bible_viewer.c. -/
def MAX_SEARCH_RESULTS : Nat := 50

/-- `MAX_BOOKMARKS` from bible_viewer.c. -/
def MAX_BOOKMARKS : Nat := 75

/-- `WRAP_MAX_LINES` from bible_viewer.c. -/
def WRAP_MAX_LINES : Nat := 8

/-- `WRAP_LINE_LEN` from bible_viewer.c. -/
def WRAP_LINE_LEN : Nat := 32

/-- Result of one bounded line read from a byte stream: the collected
line (terminators stripped), the number of bytes consumed, whether the
read hit end of file, and the remaining stream. -/
structure ReadRes where
  line : List Char
  used : Nat
  eof : Bool
  rest : List Char
deriving Repr, DecidableEq

/-- The bounded line-read loop shared by `read_line` (bible_viewer.c:683)
and the inner loop of `build_index` (bible_viewer.c:753): while the
buffer index `li` is below `cap`, read one byte; skip `'\r'`, stop at
`'\n'` (consuming it) or end of stream, else append the byte. -/
def readLine (cap : Nat) : Nat → List Char → ReadRes
  | li, [] => if cap ≤ li then ⟨[], 0, false, []⟩ else ⟨[], 0, true, []⟩
  | li, c :: rest =>
    if cap ≤ li then ⟨[], 0, false, c :: rest⟩
    else if c = '\r' then
      let r := readLine cap li rest
      ⟨r.line, r.used + 1, r.eof, r.rest⟩
    else if c = '\n' then ⟨[], 1, false, rest⟩
    else
      let r := readLine cap (li + 1) rest
      ⟨c :: r.line, r.used + 1, r.eof, r.rest⟩

/-- One entry of the verse index (`VerseIndex` in bible_viewer.c:473):
byte offset of the line start plus the cached reference field. -/
structure Entry where
  off : Nat
  ref : List Char
deriving Repr, DecidableEq

/-- `strchr(line, '|')` as an index: position of the first `'|'`. -/
def findPipe : List Char → Option Nat
  | [] => none
  | c :: rest => if c = '|' then some 0 else (findPipe rest).map (· + 1)

/-- The loop body of `build_index` (bible_viewer.c:739-780): read lines
with a `LINE_BUF_LEN` buffer, skip blank lines and lines without a
`'|'`, and for every other line record the line-start offset together
with the first field truncated to `REF_LEN - 1` chars, stopping at
`MAX_VERSES` entries or end of file.  `fuel` only bounds the recursion;
every iteration consumes at least one byte, so `s.length + 1` steps
always reach the real termination condition. -/
def buildIndexAux : Nat → List Char → Nat → List Entry → List Entry
  | 0, _, _, acc => acc
  | fuel + 1, s, off, acc =>
    if MAX_VERSES ≤ acc.length then acc
    else
      let r := readLine (LINE_BUF_LEN - 1) 0 s
      if r.line.isEmpty then
        if r.eof then acc else buildIndexAux fuel r.rest (off + r.used) acc
      else
        match findPipe r.line with
        | none => if r.eof then acc else buildIndexAux fuel r.rest (off + r.used) acc
        | some p =>
          let e : Entry := ⟨off, r.line.take (min p (REF_LEN - 1))⟩
          if r.eof then acc ++ [e]
          else buildIndexAux fuel r.rest (off + r.used) (acc ++ [e])

/-- `build_index` on a whole file. -/
def buildIndex (s : List Char) : List Entry :=
  buildIndexAux (s.length + 1) s 0 []

example :
    buildIndex ("Gen 1:1|Genesis|In the beginning...\n\nGen 1:2|Genesis|And the earth...\n").toList
      = [⟨0, "Gen 1:1".toList⟩, ⟨37, "Gen 1:2".toList⟩] := by decide

/-- ASCII lower-casing as done inline in `icontains` (bible_viewer.c:640):
`'A'..'Z'` get 32 added, all other bytes pass through. -/
def lowerC (c : Char) : Char :=
  if 'A' ≤ c ∧ c ≤ 'Z' then Char.ofNat (c.toNat + 32) else c

/-- The inner loop of `icontains`: does `n` match the start of `h`
case-insensitively? -/
def ciPre : List Char → List Char → Bool
  | [], _ => true
  | _ :: _, [] => false
  | a :: ns, b :: hs => (lowerC b = lowerC a) && ciPre ns hs

/-- The outer loop of `icontains`: try every start position of the hay. -/
def ciSub (needle : List Char) : List Char → Bool
  | [] => ciPre needle []
  | c :: rest => ciPre needle (c :: rest) || ciSub needle rest

/-- `icontains` (bible_viewer.c:632-647): ASCII case-insensitive
substring test, false for an empty needle. -/
def icontains (hay needle : List Char) : Bool :=
  if needle.isEmpty then false else ciSub needle hay

example : icontains "Gen 1:1|Genesis|LIGHT".toList "light".toList = true := by decide
example : icontains "abc".toList "".toList = false := by decide

/-- The loop of `do_search` (bible_viewer.c:1084-1107): stream the file
with `read_line`, keep an ordinal `vn` that increments once per
non-blank line; on a zero-length read probe one more byte to tell a
blank line (byte discarded, continue) from end of file (stop); record
the ordinal of every line containing the query, stopping once the
ordinal reaches `vc` (= `verse_count`) or `MAX_SEARCH_RESULTS` hits. -/
def searchAux : Nat → List Char → List Char → Nat → Nat → List Nat → List Nat
  | 0, _, _, _, _, hits => hits
  | fuel + 1, s, q, vn, vc, hits =>
    if vn < vc ∧ hits.length < MAX_SEARCH_RESULTS then
      let r := readLine (LINE_BUF_LEN - 1) 0 s
      if r.line.isEmpty then
        match r.rest with
        | [] => hits
        | _ :: t => searchAux fuel t q vn vc hits
      else
        searchAux fuel r.rest q (vn + 1) vc
          (if icontains r.line q then hits ++ [vn] else hits)
    else hits

/-- `do_search`: empty queries return no hits without touching the file
(`!app->search_len` guard at bible_viewer.c:1087). -/
def doSearch (file q : List Char) (vc : Nat) : List Nat :=
  if q.isEmpty then [] else searchAux (file.length + 1) file q 0 vc []

/-- The ordinal walk of `do_search`'s line counter: the `k`-th element
is the byte offset at which the search pass starts reading the line it
counts as ordinal `k`, together with that line's content.  This is
`searchAux` with the hit accumulation stripped (it depends only on the
stream, not on the query), capped at `cnt` counted lines just as the
search loop is capped at `verse_count`. -/
def searchWalk : Nat → List Char → Nat → Nat → List (Nat × List Char)
  | 0, _, _, _ => []
  | fuel + 1, s, off, cnt =>
    if cnt = 0 then []
    else
      let r := readLine (LINE_BUF_LEN - 1) 0 s
      if r.line.isEmpty then
        match r.rest with
        | [] => []
        | _ :: t => searchWalk fuel t (off + r.used + 1) cnt
      else (off, r.line) :: searchWalk fuel r.rest (off + r.used) (cnt - 1)

/-- `word_wrap`'s backward scan for a break point
(bible_viewer.c:667-669): largest `b ∈ [1, start]` with `t[b] = ' '`,
else `0`. -/
def scanBrk (t : List Char) : Nat → Nat
  | 0 => 0
  | b + 1 => if t[b + 1]? = some ' ' then b + 1 else scanBrk t b

/-- The break position actually used: the scan result, or a hard break
at `cols` when no space was found (bible_viewer.c:669). -/
def findBrk (t : List Char) (cols : Nat) : Nat :=
  let b := scanBrk t cols
  if b = 0 then cols else b

/-- The emission loop of `word_wrap` (bible_viewer.c:660-674): up to
`WRAP_MAX_LINES` lines; if the remainder fits in `cols` emit it whole,
otherwise break at `findBrk`, and skip a single space that immediately
follows the break. -/
def wrapAux : Nat → List Char → Nat → List (List Char)
  | 0, _, _ => []
  | k + 1, t, cols =>
    if t.isEmpty then []
    else if t.length ≤ cols then [t]
    else
      let brk := findBrk t cols
      let rest := t.drop brk
      let rest' := if rest.head? = some ' ' then rest.tail else rest
      t.take brk :: wrapAux k rest' cols

/-- `word_wrap` (bible_viewer.c:655-675) with its clamping of the
column width into `[1, WRAP_LINE_LEN]`. -/
def wordWrap (text : List Char) (cols : Nat) : List (List Char) :=
  let c1 := if cols < 1 then 1 else cols
  let c2 := if WRAP_LINE_LEN < c1 then WRAP_LINE_LEN else c1
  wrapAux WRAP_MAX_LINES text c2

/-- Rejoin wrapped lines into running text, one space per line break. -/
def joinSp : List (List Char) → List Char
  | [] => []
  | [l] => l
  | l :: ls => l ++ ' ' :: joinSp ls

example : wordWrap "For God so loved the world".toList 10
    = ["For God so".toList, "loved the".toList, "world".toList] := by decide
example :
    wordWrap (joinSp (wordWrap "For God so loved the world".toList 10)) 10
      = wordWrap "For God so loved the world".toList 10 := by decide
example : wordWrap "abcdefgh".toList 3 = ["abc".toList, "def".toList, "gh".toList] := by decide

/-- Fuel-bounded digit emitter behind `natDec`; `n + 1` units of fuel
always suffice since `n / 10 < n` for `n ≥ 10`. -/
def natDecAux : Nat → Nat → List Char
  | 0, _ => []
  | fuel + 1, n =>
    if n < 10 then [Char.ofNat (48 + n)]
    else natDecAux fuel (n / 10) ++ [Char.ofNat (48 + n % 10)]

/-- Decimal rendering of an unsigned value, as `snprintf` `"%u"` /
`"%lu"` produce it. -/
def natDec (n : Nat) : List Char := natDecAux (n + 1) n

/-- Decimal rendering of a signed value (`snprintf` `"%d"`). -/
def intDec (v : Int) : List Char :=
  if v < 0 then '-' :: natDec v.natAbs else natDec v.natAbs

/-- Leading-digit accumulator shared by the `atoi` / `strtoul` models:
consume decimal digits from the front, stop at the first non-digit. -/
def digitsVal : List Char → Nat → Nat
  | [], acc => acc
  | c :: r, acc =>
    if '0' ≤ c ∧ c ≤ '9' then digitsVal r (acc * 10 + (c.toNat - 48)) else acc

/-- `atoi`: skip leading blanks, take an optional sign, parse leading
decimal digits (0 if there are none). -/
def atoiI (s : List Char) : Int :=
  match s.dropWhile (fun c => c = ' ' ∨ c = '\t') with
  | [] => 0
  | c :: r =>
    if c = '-' then -(digitsVal r 0 : Int)
    else if c = '+' then (digitsVal r 0 : Int)
    else (digitsVal (c :: r) 0 : Int)

/-- `strtoul(val, NULL, 10)` on the non-negative inputs this program
writes: leading blanks then decimal digits. -/
def strtoulN (s : List Char) : Nat :=
  digitsVal (s.dropWhile (fun c => c = ' ' ∨ c = '\t')) 0

/-- `(uint16_t)` cast of an `int` value. -/
def toU16 (v : Int) : Nat := (v % 65536).toNat

example : atoiI "123".toList = 123 := by decide
example : atoiI "-7x".toList = -7 := by decide
example : atoiI "abc".toList = 0 := by decide

-- ============================================================
-- Bookmark store
-- ============================================================

/-- The removal loop of `toggle_bmark` (bible_viewer.c:915-922): delete
the first occurrence by shifting the tail left. -/
def removeFirst : List Nat → Nat → List Nat
  | [], _ => []
  | x :: xs, v => if x = v then xs else x :: removeFirst xs v

/-- The file content `bmarks_save` (bible_viewer.c:862-874) writes: one
decimal id per line, the whole in-memory set, rewritten in full. -/
def bmarksFileOf (bm : List Nat) : List Char :=
  (bm.map (fun v => natDec v ++ ['\n'])).flatten

/-- `toggle_bmark` (bible_viewer.c:914-928): remove the id if present,
else append it when under `MAX_BOOKMARKS`; both mutating paths call
`bmarks_save` at once (second component = the file written, `none` when
nothing was saved). -/
def toggle_bmark (bm : List Nat) (vi : Nat) : List Nat × Option (List Char) :=
  if vi ∈ bm then
    let bm' := removeFirst bm vi
    (bm', some (bmarksFileOf bm'))
  else if bm.length < MAX_BOOKMARKS then
    let bm' := bm ++ [vi]
    (bm', some (bmarksFileOf bm'))
  else (bm, none)

/-- The byte loop of `bmarks_load` (bible_viewer.c:876-906): accumulate
up to 7 chars per line (extra bytes dropped), on a terminator or end of
file parse the buffer with `(uint16_t)atoi` and keep the value when it
is below `vc` (= `verse_count`), stopping at `MAX_BOOKMARKS`. -/
def bmarksLoadAux : List Char → List Char → List Nat → Nat → List Nat
  | s, buf, acc, vc =>
    if MAX_BOOKMARKS ≤ acc.length then acc
    else
      match s with
      | [] =>
        if buf.isEmpty then acc
        else if toU16 (atoiI buf) < vc then acc ++ [toU16 (atoiI buf)] else acc
      | c :: rest =>
        if c = '\n' ∨ c = '\r' then
          if buf.isEmpty then bmarksLoadAux rest [] acc vc
          else if toU16 (atoiI buf) < vc then
            bmarksLoadAux rest [] (acc ++ [toU16 (atoiI buf)]) vc
          else bmarksLoadAux rest [] acc vc
        else if buf.length < 7 then bmarksLoadAux rest (buf ++ [c]) acc vc
        else bmarksLoadAux rest buf acc vc

/-- `bmarks_load` on a whole file. -/
def bmarksLoad (content : List Char) (vc : Nat) : List Nat :=
  bmarksLoadAux content [] [] vc

example : bmarksLoad "3\n17\nbogus\n9999\n".toList 20 = [3, 17, 0] := by decide

-- ============================================================
-- Settings store
-- ============================================================

/-- In-memory fields touched by `settings_save` / `settings_load`. -/
structure SettingsSt where
  vfile_sel : Nat
  font_choice : Nat
  api_trans_sel : Nat
  api_book_sel : Nat
  api_chapter_sel : Nat
  api_verse_sel : Nat
  daily_verse_idx : Nat
  daily_verse_day : Nat
deriving Repr, DecidableEq

/-- The URL codes of `API_TRANSLATIONS` (bible_viewer.c:84-94). -/
def apiCodes : List (List Char) :=
  ["web".toList, "kjv".toList, "asv".toList, "bbe".toList, "darby".toList,
   "dra".toList, "ylt".toList, "webbe".toList, "oeb-us".toList]

/-- `strrchr(path, '/')` + 1 as used by `settings_save` and
`settings_load`: the component after the last slash (the whole string
when there is none). -/
def basenameOf (p : List Char) : List Char :=
  (p.reverse.takeWhile (fun c => c ≠ '/')).reverse

/-- The file content `settings_save` (bible_viewer.c:940-988) writes:
one `key=value` line per known setting, the corpus stored by filename.
(The C `snprintf` line buffers hold 95 chars; the round-trip theorem
assumes filenames short enough that no line is truncated.) -/
def settings_save (vfiles : List (List Char)) (s : SettingsSt) : List Char :=
  "verse_file=".toList ++ basenameOf ((vfiles.get? s.vfile_sel).getD []) ++ ['\n'] ++
  "font_size=".toList ++ natDec s.font_choice ++ ['\n'] ++
  "api_trans=".toList ++ (apiCodes.get? s.api_trans_sel).getD [] ++ ['\n'] ++
  "api_book=".toList ++ natDec s.api_book_sel ++ ['\n'] ++
  "api_chapter=".toList ++ natDec s.api_chapter_sel ++ ['\n'] ++
  "api_verse=".toList ++ natDec s.api_verse_sel ++ ['\n'] ++
  "daily_idx=".toList ++ natDec s.daily_verse_idx ++ ['\n'] ++
  "daily_day=".toList ++ natDec s.daily_verse_day ++ ['\n']

/-- `strchr(line, '=')` split: key before the first `'='`, value after;
`none` when the line has no `'='` (line skipped). -/
def splitEq1 : List Char → Option (List Char × List Char)
  | [] => none
  | c :: r =>
    if c = '=' then some ([], r)
    else (splitEq1 r).map (fun kv => (c :: kv.1, kv.2))

/-- One `key=value` application of `settings_load`
(bible_viewer.c:1014-1057): recognized keys are parsed and
range-checked before being applied; anything else leaves the state
untouched. -/
def loadLine (vfiles : List (List Char)) (st : SettingsSt) (line : List Char) :
    SettingsSt :=
  match splitEq1 line with
  | none => st
  | some (key, val) =>
    if key = "verse_file".toList then
      match vfiles.findIdx? (fun p => basenameOf p = val) with
      | some i => { st with vfile_sel := i }
      | none => st
    else if key = "font_size".toList then
      let v := atoiI val
      if 0 ≤ v ∧ v < 5 then { st with font_choice := v.toNat } else st
    else if key = "api_trans".toList then
      match apiCodes.findIdx? (fun c => val = c) with
      | some i => { st with api_trans_sel := i }
      | none => st
    else if key = "api_book".toList then
      let v := atoiI val
      if 0 ≤ v ∧ v < 66 then { st with api_book_sel := v.toNat } else st
    else if key = "api_chapter".toList then
      let v := atoiI val
      if 1 ≤ v ∧ v ≤ 150 then { st with api_chapter_sel := v.toNat } else st
    else if key = "api_verse".toList then
      let v := atoiI val
      if 1 ≤ v ∧ v ≤ 176 then { st with api_verse_sel := v.toNat } else st
    else if key = "daily_idx".toList then
      let v := atoiI val
      if 0 ≤ v ∧ v < 600 then { st with daily_verse_idx := v.toNat } else st
    else if key = "daily_day".toList then
      { st with daily_verse_day := strtoulN val % 2 ^ 32 }
    else st

/-- The line reader of `settings_load` (bible_viewer.c:999-1012): lines
via a 95-char buffer, blank reads skipped, stop at end of file (a final
unterminated line is still processed). -/
def settingsLines : Nat → List Char → List (List Char)
  | 0, _ => []
  | fuel + 1, s =>
    let r := readLine 95 0 s
    if r.eof then if r.line.isEmpty then [] else [r.line]
    else if r.line.isEmpty then settingsLines fuel r.rest
    else r.line :: settingsLines fuel r.rest

/-- `settings_load` (bible_viewer.c:993-1063) applied to file content. -/
def settings_load (vfiles : List (List Char)) (content : List Char)
    (st : SettingsSt) : SettingsSt :=
  (settingsLines (content.length + 1) content).foldl (loadLine vfiles) st

example :
    settings_load ["/d/verses_en.txt".toList, "/d/verses_de.txt".toList]
        (settings_save ["/d/verses_en.txt".toList, "/d/verses_de.txt".toList]
          ⟨1, 2, 3, 18, 40, 22, 100, 77⟩)
        ⟨0, 0, 0, 0, 1, 1, 0, 0⟩
      = ⟨1, 2, 3, 18, 40, 22, 100, 77⟩ := by decide

-- ============================================================
-- BoundsTable and the reference picker
-- ============================================================

/-- The `chapters` column of `BIBLE_BOOKS` (bible_viewer.c:96-119). -/
def bookChapters : List Nat :=
  [50, 40, 27, 36, 34, 24, 21, 4, 31, 24, 22, 25, 29, 36, 10, 13, 10, 42, 150, 31,
   12, 8, 66, 52, 5, 48, 12, 14, 3, 9, 1, 4, 7, 3, 3, 3, 2, 14, 4, 28,
   16, 24, 21, 28, 16, 16, 13, 6, 6, 4, 4, 5, 3, 6, 4, 3, 1, 13, 5, 5,
   3, 5, 1, 1, 1, 22]

/-- Segment of `VERSE_COUNTS` (values verbatim from
bible_viewer.c:124-346; split into four segments so proofs evaluate
within stack bounds). -/
def VERSE_COUNTS_A : List Nat :=
  [31, 25, 24, 26, 32, 22, 24, 22, 29, 32, 32, 20, 18, 24, 21, 16, 27, 33, 38, 18,
   34, 24, 20, 67, 34, 35, 46, 22, 35, 43, 55, 32, 20, 31, 29, 43, 36, 30, 23, 23,
   57, 38, 34, 34, 28, 34, 31, 22, 33, 26, 22, 25, 22, 31, 23, 30, 25, 32, 35, 29,
   10, 51, 22, 31, 27, 36, 16, 27, 25, 26, 36, 31, 33, 18, 40, 37, 21, 43, 46, 38,
   18, 35, 23, 35, 35, 38, 29, 31, 43, 38, 17, 16, 17, 35, 19, 30, 38, 36, 24, 20,
   47, 8, 59, 57, 33, 34, 16, 30, 24, 16, 15, 49, 52, 45, 23, 26, 20, 54, 34, 51,
   49, 31, 27, 89, 26, 23, 36, 35, 16, 33, 45, 41, 50, 13, 32, 22, 29, 35, 41, 30,
   25, 18, 65, 23, 31, 40, 16, 54, 42, 56, 29, 34, 13, 46, 37, 29, 49, 33, 25, 26,
   20, 29, 22, 32, 32, 18, 29, 23, 22, 20, 22, 21, 20, 23, 30, 25, 22, 19, 19, 26,
   68, 29, 20, 30, 52, 29, 12, 18, 24, 17, 24, 15, 27, 26, 35, 27, 43, 23, 24, 33,
   15, 63, 10, 18, 28, 51, 9, 45, 34, 16, 33, 36, 23, 31, 24, 31, 40, 25, 35, 57,
   18, 40, 15, 25, 20, 20, 31, 13, 31, 30, 48, 25, 22, 23, 18, 22, 28, 36, 21, 22,
   12, 21, 17, 22, 27, 27, 15, 25, 23, 52, 35, 23, 58, 30, 24, 42, 15, 23, 29, 22,
   44, 25, 12, 25, 11, 31, 13, 27, 32, 39, 12, 25, 23, 29, 18, 13, 19, 27, 31, 39,
   33, 37, 23, 29, 33, 43, 26, 22, 51, 39, 25, 53, 46, 28, 34, 18, 38, 51, 66, 28]

/-- Segment of `VERSE_COUNTS` (values verbatim from
bible_viewer.c:124-346; split into four segments so proofs evaluate
within stack bounds). -/
def VERSE_COUNTS_B : List Nat :=
  [29, 43, 33, 34, 31, 34, 34, 24, 46, 21, 43, 29, 53, 18, 25, 27, 44, 27, 33, 20,
   29, 37, 36, 21, 21, 25, 29, 38, 20, 41, 37, 37, 21, 26, 20, 37, 20, 30, 54, 55,
   24, 43, 26, 81, 40, 40, 44, 14, 47, 40, 14, 17, 29, 43, 27, 17, 19, 8, 30, 19,
   32, 31, 31, 32, 34, 21, 30, 17, 18, 17, 22, 14, 42, 22, 18, 31, 19, 23, 16, 22,
   15, 19, 14, 19, 34, 11, 37, 20, 12, 21, 27, 28, 23, 9, 27, 36, 27, 21, 33, 25,
   33, 27, 23, 11, 70, 13, 24, 17, 22, 28, 36, 15, 44, 11, 20, 32, 23, 19, 19, 73,
   18, 38, 39, 36, 47, 31, 22, 23, 15, 17, 14, 14, 10, 17, 32, 3, 22, 13, 26, 21,
   27, 30, 21, 22, 35, 22, 20, 25, 28, 22, 35, 22, 16, 21, 29, 29, 34, 30, 17, 25,
   6, 14, 23, 28, 25, 31, 40, 22, 33, 37, 16, 33, 24, 41, 30, 24, 34, 17, 6, 12,
   8, 8, 12, 10, 17, 9, 20, 18, 7, 8, 6, 7, 5, 11, 15, 50, 14, 9, 13, 31,
   6, 10, 22, 12, 14, 9, 11, 12, 24, 11, 22, 22, 28, 12, 40, 22, 13, 17, 13, 11,
   5, 20, 28, 22, 35, 22, 46, 18, 16, 18, 12, 5, 12, 20, 12, 23, 11, 13, 12, 9,
   9, 5, 8, 28, 22, 35, 45, 48, 43, 13, 31, 7, 10, 10, 9, 8, 18, 19, 2, 29,
   18, 7, 8, 9, 4, 8, 5, 6, 5, 6, 8, 8, 3, 18, 3, 3, 21, 26, 9, 8,
   24, 13, 10, 7, 12, 15, 21, 10, 20, 14, 9, 6, 7, 23, 11, 13, 176, 9, 8, 9]

/-- Segment of `VERSE_COUNTS` (values verbatim from
bible_viewer.c:124-346; split into four segments so proofs evaluate
within stack bounds). -/
def VERSE_COUNTS_C : List Nat :=
  [4, 8, 5, 6, 5, 3, 8, 8, 3, 18, 3, 3, 21, 26, 9, 8, 24, 13, 10, 7,
   12, 15, 21, 10, 20, 14, 9, 6, 33, 22, 35, 27, 23, 35, 27, 36, 18, 32, 31, 28,
   25, 35, 33, 33, 28, 24, 29, 30, 31, 29, 35, 34, 28, 28, 27, 28, 27, 33, 31, 18,
   26, 22, 16, 20, 12, 29, 17, 18, 20, 10, 14, 17, 17, 11, 16, 16, 13, 13, 14, 31,
   22, 26, 6, 30, 13, 25, 22, 21, 34, 16, 6, 22, 32, 9, 14, 14, 7, 25, 6, 17,
   25, 18, 23, 12, 21, 13, 29, 24, 33, 9, 20, 24, 17, 10, 22, 38, 22, 8, 31, 29,
   25, 28, 28, 25, 13, 15, 22, 26, 11, 23, 15, 12, 17, 13, 12, 21, 14, 21, 22, 11,
   12, 19, 12, 25, 24, 19, 37, 25, 31, 31, 30, 34, 22, 26, 25, 23, 17, 27, 22, 21,
   21, 27, 23, 15, 18, 14, 30, 40, 10, 38, 24, 22, 17, 32, 24, 40, 44, 26, 22, 19,
   32, 21, 28, 18, 16, 18, 22, 13, 30, 5, 28, 7, 47, 39, 46, 64, 34, 22, 22, 66,
   22, 22, 28, 10, 27, 17, 17, 14, 27, 18, 11, 22, 25, 28, 23, 23, 8, 63, 24, 32,
   14, 49, 32, 31, 49, 27, 17, 21, 36, 26, 21, 26, 18, 32, 33, 31, 15, 38, 28, 23,
   29, 49, 26, 20, 27, 31, 25, 24, 23, 35, 21, 49, 30, 37, 31, 28, 28, 27, 27, 21,
   45, 13, 11, 23, 5, 19, 15, 11, 16, 14, 17, 15, 12, 14, 16, 9, 20, 32, 21, 15,
   16, 15, 13, 27, 14, 17, 14, 15, 21, 17, 10, 10, 11, 16, 13, 12, 13, 15, 16, 20]

/-- Segment of `VERSE_COUNTS` (values verbatim from
bible_viewer.c:124-346; split into four segments so proofs evaluate
within stack bounds). -/
def VERSE_COUNTS_D : List Nat :=
  [15, 13, 19, 17, 20, 19, 18, 15, 20, 15, 23, 21, 13, 10, 14, 11, 15, 14, 23, 17,
   12, 17, 14, 9, 21, 14, 17, 18, 6, 25, 23, 17, 25, 48, 34, 29, 34, 38, 42, 30,
   50, 58, 36, 39, 28, 27, 35, 30, 34, 46, 46, 39, 51, 46, 75, 66, 20, 45, 28, 35,
   41, 43, 56, 37, 38, 50, 52, 33, 44, 37, 72, 47, 20, 80, 52, 38, 44, 39, 49, 50,
   56, 62, 42, 54, 59, 35, 35, 32, 31, 37, 43, 48, 47, 38, 71, 56, 53, 51, 25, 36,
   54, 47, 71, 53, 59, 41, 42, 57, 50, 38, 31, 27, 33, 26, 40, 42, 31, 25, 26, 47,
   26, 37, 42, 15, 60, 40, 43, 48, 30, 25, 52, 28, 41, 40, 34, 28, 41, 38, 40, 30,
   35, 27, 27, 32, 44, 31, 32, 29, 31, 25, 21, 23, 25, 39, 33, 21, 36, 21, 14, 26,
   33, 24, 31, 16, 23, 21, 13, 20, 40, 13, 27, 33, 34, 31, 13, 40, 58, 24, 24, 17,
   18, 18, 21, 18, 16, 24, 15, 18, 33, 21, 14, 24, 21, 29, 31, 26, 18, 23, 22, 21,
   28, 30, 14, 30, 30, 21, 23, 29, 23, 25, 18, 10, 20, 13, 18, 28, 12, 17, 18, 20,
   15, 16, 16, 25, 21, 18, 26, 17, 22, 16, 15, 15, 25, 14, 18, 19, 16, 14, 20, 28,
   13, 28, 39, 40, 29, 25, 27, 26, 18, 17, 20, 25, 25, 22, 19, 14, 21, 22, 18, 10,
   29, 24, 21, 21, 13, 14, 25, 20, 29, 22, 11, 14, 17, 17, 13, 21, 11, 19, 17, 18,
   20, 8, 21, 18, 24, 21, 15, 27, 21]

/-- `VERSE_COUNTS` (bible_viewer.c:124-346): verse count of every
chapter of every book, one flat 1189-entry table, assembled from its
four segments in order. -/
def VERSE_COUNTS : List Nat :=
  VERSE_COUNTS_A ++ VERSE_COUNTS_B ++ VERSE_COUNTS_C ++ VERSE_COUNTS_D

/-- `VERSE_COUNT_OFFSET` (bible_viewer.c:349-357): start index in
`VERSE_COUNTS` of each book's first chapter. -/
def VERSE_COUNT_OFFSET : List Nat :=
  [0, 50, 90, 117, 153, 187, 211, 232, 236, 267, 291, 313, 338, 367, 403, 413, 426, 436, 478, 628,
   659, 671, 679, 745, 797, 802, 850, 862, 876, 879, 888, 889, 893, 900, 903, 906, 909, 911, 925, 929,
   957, 973, 997, 1018, 1046, 1062, 1078, 1091, 1097, 1103, 1107, 1111, 1116, 1119, 1125, 1129, 1132, 1133, 1146, 1151,
   1156, 1159, 1164, 1165, 1166, 1167]

/-- `book_chapter_verses` (bible_viewer.c:360-362): verses in a book
(0-based) and chapter (1-based). -/
def book_chapter_verses (book chapter : Nat) : Nat :=
  VERSE_COUNTS.getD (VERSE_COUNT_OFFSET.getD book 0 + chapter - 1) 0

/-- `BIBLE_BOOKS[book].chapters`. -/
def chaptersOf (book : Nat) : Nat := bookChapters.getD book 0

/-- Picker state: (book 0-based, chapter 1-based, verse 1-based). -/
abbrev Picker := Nat × Nat × Nat

/-- `on_api_menu` Left on the Book row (bible_viewer.c:2379-2387):
cycle the book down past 0 to 65, then clamp chapter and verse to the
new book's limits. -/
def stepBookPrev : Picker → Picker
  | (b, c, v) =>
    let b' := if 0 < b then b - 1 else 65
    let c' := if chaptersOf b' < c then chaptersOf b' else c
    let v' := if book_chapter_verses b' c' < v then book_chapter_verses b' c' else v
    (b', c', v')

/-- `on_api_menu` Right on the Book row (bible_viewer.c:2405-2413):
cycle the book up past 65 to 0, then clamp chapter and verse. -/
def stepBookNext : Picker → Picker
  | (b, c, v) =>
    let b' := if b < 65 then b + 1 else 0
    let c' := if chaptersOf b' < c then chaptersOf b' else c
    let v' := if book_chapter_verses b' c' < v then book_chapter_verses b' c' else v
    (b', c', v')

/-- `on_api_menu` Left on the Chapter row (bible_viewer.c:2388-2394):
cycle the chapter down within `[1, chapters]`, then clamp the verse. -/
def stepChapterPrev : Picker → Picker
  | (b, c, v) =>
    let c' := if 1 < c then c - 1 else chaptersOf b
    let v' := if book_chapter_verses b c' < v then book_chapter_verses b c' else v
    (b, c', v')

/-- `on_api_menu` Right on the Chapter row (bible_viewer.c:2414-2422). -/
def stepChapterNext : Picker → Picker
  | (b, c, v) =>
    let c' := if c < chaptersOf b then c + 1 else 1
    let v' := if book_chapter_verses b c' < v then book_chapter_verses b c' else v
    (b, c', v')

/-- `on_api_menu` Left on the Verse row (bible_viewer.c:2395-2398):
cycle the verse down within `[1, verses(book, chapter)]`. -/
def stepVersePrev : Picker → Picker
  | (b, c, v) => (b, c, if 1 < v then v - 1 else book_chapter_verses b c)

/-- `on_api_menu` Right on the Verse row (bible_viewer.c:2423-2428). -/
def stepVerseNext : Picker → Picker
  | (b, c, v) => (b, c, if v < book_chapter_verses b c then v + 1 else 1)

set_option maxRecDepth 4000 in
example : stepChapterPrev (0, 1, 1) = (0, 50, 1) := by decide
set_option maxRecDepth 4000 in
example : stepVersePrev (0, 1, 1) = (0, 1, 31) := by decide
set_option maxRecDepth 4000 in
example : stepBookNext (17, 40, 1) = (18, 40, 1) := by decide
set_option maxRecDepth 4000 in
example : stepBookNext (6, 40, 25) = (7, 4, 22) := by decide

-- ============================================================
-- Reference shapes used to characterize the two file passes
-- ============================================================

/-- A file assembled from its physical lines, each `'\n'`-terminated. -/
def joinLines (ls : List (List Char)) : List Char :=
  (ls.map (fun l => l ++ ['\n'])).flatten

/-- The cached reference `build_index` stores for a line: the first
pipe-delimited field truncated to `REF_LEN - 1` chars (empty for a
line with no pipe, which is never recorded). -/
def refOf (l : List Char) : List Char :=
  match findPipe l with
  | some p => l.take (min p (REF_LEN - 1))
  | none => []

/-- Expected index contents for a list of well-formed physical lines:
one entry per line carrying the running byte offset, capped at `n`. -/
def entriesOf : List (List Char) → Nat → Nat → List Entry
  | [], _, _ => []
  | _ :: _, _, 0 => []
  | l :: ls, off, n + 1 => ⟨off, refOf l⟩ :: entriesOf ls (off + l.length + 1) n

/-- Expected ordinal walk for a list of well-formed physical lines:
one (offset, line) pair per line, capped at `n`. -/
def pairsOf : List (List Char) → Nat → Nat → List (Nat × List Char)
  | [], _, _ => []
  | _ :: _, _, 0 => []
  | l :: ls, off, n + 1 => (off, l) :: pairsOf ls (off + l.length + 1) n

-- ============================================================
-- Lemmas about the bounded line reader
-- ============================================================

/-- A read never collects more chars than it consumes. -/
theorem readLine_line_length_le (cap : Nat) :
    ∀ (li : Nat) (s : List Char),
      (readLine cap li s).line.length ≤ (readLine cap li s).used := by
  intro li s
  induction s generalizing li with
  | nil => rw [readLine]; split <;> simp
  | cons c rest ih =>
    rw [readLine]
    split
    · simp
    · split
      · simpa using Nat.le_succ_of_le (ih li)
      · split
        · simp
        · simpa using Nat.succ_le_succ (ih (li + 1))

/-- Reading a well-formed line (no terminators, short enough for the
buffer) followed by `'\n'` collects exactly that line and consumes it
together with its newline. -/
theorem readLine_cons_nl (cap : Nat) :
    ∀ (l : List Char) (li : Nat) (s : List Char), '\n' ∉ l → '\r' ∉ l →
      li + l.length < cap →
      readLine cap li (l ++ '\n' :: s) = ⟨l, l.length + 1, false, s⟩ := by
  intro l
  induction l with
  | nil =>
    intro li s _ _ hlt
    have hli : ¬ cap ≤ li := by simp at hlt; omega
    rw [List.nil_append, readLine, if_neg hli, if_neg (by decide : ¬('\n' = '\r'))]
    simp
  | cons c l ih =>
    intro li s hn hr hlt
    simp only [List.mem_cons, not_or] at hn hr
    rw [List.cons_append, readLine]
    rw [if_neg (by simp only [List.length_cons] at hlt; omega)]
    rw [if_neg (fun h => hr.1 h.symm), if_neg (fun h => hn.1 h.symm)]
    have := ih (li + 1) s hn.2 hr.2 (by simp only [List.length_cons] at hlt; omega)
    simp [this]

/-- Reading content that exactly fills the buffer stops without
consuming a terminator: the tail is left in the stream, `eof` clear. -/
theorem readLine_full (cap : Nat) :
    ∀ (l : List Char) (li : Nat) (s : List Char), '\n' ∉ l → '\r' ∉ l →
      li + l.length = cap →
      readLine cap li (l ++ s) = ⟨l, l.length, false, s⟩ := by
  intro l
  induction l with
  | nil =>
    intro li s _ _ heq
    have hli : cap ≤ li := by simp at heq; omega
    cases s with
    | nil => rw [List.nil_append, readLine, if_pos hli]; simp
    | cons c t => rw [List.nil_append, readLine, if_pos hli]; simp
  | cons c l ih =>
    intro li s hn hr heq
    simp only [List.mem_cons, not_or] at hn hr
    rw [List.cons_append, readLine]
    rw [if_neg (by simp only [List.length_cons] at heq; omega)]
    rw [if_neg (fun h => hr.1 h.symm), if_neg (fun h => hn.1 h.symm)]
    have := ih (li + 1) s hn.2 hr.2 (by simp only [List.length_cons] at heq; omega)
    simp [this]

-- ============================================================
-- C1: index invariant (sorted offsets, bounded count)
-- ============================================================

/-- Offsets in the accumulator stay sorted and bounded through the
indexing loop: every recorded entry lies strictly before the running
offset, and each recorded line consumes at least one byte. -/
theorem buildIndexAux_inv :
    ∀ (fuel : Nat) (s : List Char) (off : Nat) (acc : List Entry),
      (∀ e ∈ acc, e.off < off) →
      acc.Pairwise (fun a b => a.off < b.off) →
      acc.length ≤ MAX_VERSES →
      ((buildIndexAux fuel s off acc).Pairwise (fun a b => a.off < b.off) ∧
        (buildIndexAux fuel s off acc).length ≤ MAX_VERSES) := by
  intro fuel
  induction fuel with
  | zero => intro s off acc _ h2 h3; exact ⟨h2, h3⟩
  | succ n ih =>
    intro s off acc h1 h2 h3
    have hlen := readLine_line_length_le (LINE_BUF_LEN - 1) 0 s
    rcases hr : readLine (LINE_BUF_LEN - 1) 0 s with ⟨line, used, eof, rest⟩
    rw [hr] at hlen; dsimp only at hlen
    rw [buildIndexAux]
    simp only [hr]
    by_cases hcap : MAX_VERSES ≤ acc.length
    · rw [if_pos hcap]; exact ⟨h2, h3⟩
    · rw [if_neg hcap]
      cases line with
      | nil =>
        simp only [List.isEmpty_nil, if_true]
        cases eof with
        | true => exact ⟨h2, h3⟩
        | false =>
          exact ih rest (off + used) acc
            (fun e he => Nat.lt_of_lt_of_le (h1 e he) (Nat.le_add_right _ _)) h2 h3
      | cons a t =>
        simp only [List.isEmpty_cons, Bool.false_eq_true, if_false]
        have hused : 1 ≤ used := by simp at hlen; omega
        cases hp : findPipe (a :: t) with
        | none =>
          cases eof with
          | true => exact ⟨h2, h3⟩
          | false =>
            exact ih rest (off + used) acc
              (fun e he => Nat.lt_of_lt_of_le (h1 e he) (Nat.le_add_right _ _)) h2 h3
        | some p =>
          have hacc' : ∀ e ∈ acc ++ [(⟨off, (a :: t).take (min p (REF_LEN - 1))⟩ : Entry)],
              e.off < off + used := by
            intro e he
            rcases List.mem_append.mp he with h | h
            · exact Nat.lt_of_lt_of_le (h1 e h) (Nat.le_add_right _ _)
            · simp only [List.mem_singleton] at h; subst h; simp; omega
          have hpw' : (acc ++ [(⟨off, (a :: t).take (min p (REF_LEN - 1))⟩ : Entry)]).Pairwise
              (fun a b => a.off < b.off) := by
            rw [List.pairwise_append]
            exact ⟨h2, List.pairwise_singleton _ _, by
              intro x hx b hb; simp only [List.mem_singleton] at hb; subst hb
              exact h1 x hx⟩
          have hlen' : (acc ++ [(⟨off, (a :: t).take (min p (REF_LEN - 1))⟩ : Entry)]).length
              ≤ MAX_VERSES := by
            simp only [List.length_append, List.length_singleton]; omega
          cases eof with
          | true => exact ⟨hpw', hlen'⟩
          | false => exact ih rest (off + used) _ hacc' hpw' hlen'

/-- C1: for every corpus file, after `build_index` completes, the byte
offsets of the index entries are strictly increasing in index position,
and the entry count (`verse_count`) never exceeds the index capacity of
600 (`MAX_VERSES`). -/
theorem claim_C1 (s : List Char) :
    (buildIndex s).Pairwise (fun a b => a.off < b.off) ∧
      (buildIndex s).length ≤ MAX_VERSES := by
  exact buildIndexAux_inv (s.length + 1) s 0 [] (by simp) (by simp) (by simp [MAX_VERSES])

/-- C2: indexing the 3-line file whose physical lines are
`Gen 1:1|Genesis|In the beginning...`, a blank line, and
`Gen 1:2|Genesis|And the earth...` yields exactly two entries; entry 0
points at byte 0, entry 1 points at the start of the third physical
line (= the length of the first line plus its newline plus the blank
line's newline), and the blank line contributes no entry and consumes
no verse id. -/
theorem claim_C2 :
    buildIndex ("Gen 1:1|Genesis|In the beginning...".toList ++ '\n' ::
        '\n' :: ("Gen 1:2|Genesis|And the earth...".toList ++ ['\n']))
      = [⟨0, "Gen 1:1".toList⟩,
         ⟨("Gen 1:1|Genesis|In the beginning...".toList ++ ['\n', '\n']).length,
          "Gen 1:2".toList⟩] := by decide

-- ============================================================
-- C3: soundness of the search pass
-- ============================================================

/-- What one run of the search loop appends to the hit list: ordinals
in `[vn, vc)`, strictly ascending, each naming a line of the search
pass's ordinal walk that contains the query, with the total hit count
capped by `MAX_SEARCH_RESULTS`. -/
theorem searchAux_spec (q : List Char) (vc : Nat) :
    ∀ (fuel : Nat) (s : List Char) (vn off : Nat) (hits : List Nat),
      hits.Pairwise (· < ·) → (∀ h ∈ hits, h < vn) →
      ∃ new, searchAux fuel s q vn vc hits = hits ++ new ∧
        (hits ++ new).Pairwise (· < ·) ∧
        (∀ k ∈ new, vn ≤ k ∧ k < vc ∧
          ∃ pr, (searchWalk fuel s off (vc - vn))[k - vn]? = some pr ∧
            icontains pr.2 q = true) ∧
        hits.length + new.length ≤ max hits.length MAX_SEARCH_RESULTS := by
  intro fuel
  induction fuel with
  | zero =>
    intro s vn off hits h1 h2
    exact ⟨[], by rw [searchAux]; simp, by simpa using h1, by simp, by simp⟩
  | succ n ih =>
    intro s vn off hits h1 h2
    rw [searchAux]
    by_cases hcond : vn < vc ∧ hits.length < MAX_SEARCH_RESULTS
    · rw [if_pos hcond]
      rcases hr : readLine (LINE_BUF_LEN - 1) 0 s with ⟨line, used, eof, rest⟩
      simp only [hr]
      have hcnt : ¬ vc - vn = 0 := by omega
      cases line with
      | nil =>
        simp only [List.isEmpty_nil, if_true]
        cases rest with
        | nil => exact ⟨[], by simp, by simpa using h1, by simp, by simp⟩
        | cons b t =>
          obtain ⟨new, heq, hpw, hprop, hlen⟩ := ih t vn (off + used + 1) hits h1 h2
          refine ⟨new, heq, hpw, ?_, hlen⟩
          intro k hk
          obtain ⟨hk1, hk2, pr, hget, hic⟩ := hprop k hk
          refine ⟨hk1, hk2, pr, ?_, hic⟩
          rw [searchWalk, if_neg hcnt]
          simp only [hr, List.isEmpty_nil, if_true]
          exact hget
      | cons a t =>
        simp only [List.isEmpty_cons, Bool.false_eq_true, if_false]
        have hwalk : searchWalk (n + 1) s off (vc - vn)
            = (off, a :: t) :: searchWalk n rest (off + used) (vc - vn - 1) := by
          rw [searchWalk, if_neg hcnt]
          simp [hr]
        by_cases hic : icontains (a :: t) q = true
        · rw [if_pos hic]
          have h1' : (hits ++ [vn]).Pairwise (· < ·) := by
            rw [List.pairwise_append]
            exact ⟨h1, List.pairwise_singleton _ _, by
              intro x hx b hb; simp only [List.mem_singleton] at hb; subst hb
              exact h2 x hx⟩
          have h2' : ∀ h ∈ hits ++ [vn], h < vn + 1 := by
            intro h hh
            rcases List.mem_append.mp hh with h' | h'
            · exact Nat.lt_succ_of_lt (h2 h h')
            · simp only [List.mem_singleton] at h'; omega
          obtain ⟨new', heq, hpw, hprop, hlen⟩ := ih rest (vn + 1) (off + used) (hits ++ [vn]) h1' h2'
          refine ⟨vn :: new', by rw [heq]; simp, by simpa using hpw, ?_, ?_⟩
          · intro k hk
            rcases List.mem_cons.mp hk with hk' | hk'
            · subst hk'
              refine ⟨Nat.le_refl _, hcond.1, (off, a :: t), ?_, hic⟩
              rw [hwalk]
              simp
            · obtain ⟨hk1, hk2, pr, hget, hic'⟩ := hprop k hk'
              refine ⟨by omega, hk2, pr, ?_, hic'⟩
              rw [hwalk]
              have hidx : k - vn = (k - (vn + 1)) + 1 := by omega
              rw [hidx, List.getElem?_cons_succ]
              have : vc - (vn + 1) = vc - vn - 1 := by omega
              rwa [this] at hget
          · simp only [List.length_append, List.length_singleton, List.length_cons] at hlen ⊢
            have hlt := hcond.2
            omega
        · rw [if_neg hic]
          obtain ⟨new', heq, hpw, hprop, hlen⟩ := ih rest (vn + 1) (off + used) hits h1
            (fun h hh => Nat.lt_succ_of_lt (h2 h hh))
          refine ⟨new', heq, hpw, ?_, by omega⟩
          intro k hk
          obtain ⟨hk1, hk2, pr, hget, hic'⟩ := hprop k hk
          refine ⟨by omega, hk2, pr, ?_, hic'⟩
          rw [hwalk]
          have hidx : k - vn = (k - (vn + 1)) + 1 := by omega
          rw [hidx, List.getElem?_cons_succ]
          have : vc - (vn + 1) = vc - vn - 1 := by omega
          rwa [this] at hget
    · rw [if_neg hcond]
      exact ⟨[], by simp, by simpa using h1, by simp, by simp⟩

/-- C3: an empty query returns zero hits; a non-empty query returns a
strictly ascending list of at most `MAX_SEARCH_RESULTS` verse ordinals,
each below `verse_count`, and the raw record line that the search pass
counts at each returned ordinal contains the query as an ASCII
case-insensitive substring. -/
theorem claim_C3 (file q : List Char) (vc : Nat) :
    doSearch file [] vc = [] ∧
    (doSearch file q vc).Pairwise (· < ·) ∧
    (∀ k ∈ doSearch file q vc, k < vc ∧
      ∃ pr, (searchWalk (file.length + 1) file 0 vc)[k]? = some pr ∧
        icontains pr.2 q = true) ∧
    (doSearch file q vc).length ≤ MAX_SEARCH_RESULTS := by
  have hempty : doSearch file [] vc = [] := by rw [doSearch]; simp
  refine ⟨hempty, ?_⟩
  by_cases hq : q.isEmpty
  · have : doSearch file q vc = [] := by rw [doSearch, if_pos hq]
    rw [this]
    exact ⟨by simp, by simp, by simp [MAX_SEARCH_RESULTS]⟩
  · obtain ⟨new, heq, hpw, hprop, hlen⟩ :=
      searchAux_spec q vc (file.length + 1) file 0 0 [] (by simp) (by simp)
    have hds : doSearch file q vc = new := by
      rw [doSearch, if_neg hq, heq, List.nil_append]
    rw [hds]
    simp only [List.nil_append] at hpw
    refine ⟨hpw, ?_, by simpa using hlen⟩
    intro k hk
    obtain ⟨_, hk2, pr, hget, hic⟩ := hprop k hk
    exact ⟨hk2, pr, by simpa using hget, hic⟩

-- ============================================================
-- C4: alignment of the two passes' line counters
-- ============================================================

theorem joinLines_nil : joinLines [] = [] := rfl

theorem joinLines_cons (l : List Char) (ls : List (List Char)) :
    joinLines (l :: ls) = l ++ '\n' :: joinLines ls := by
  simp [joinLines]

theorem length_le_joinLines (ls : List (List Char)) :
    ls.length ≤ (joinLines ls).length := by
  induction ls with
  | nil => simp [joinLines]
  | cons l ls ih =>
    rw [joinLines_cons]
    simp only [List.length_append, List.length_cons]
    omega

theorem entriesOf_length (ls : List (List Char)) :
    ∀ (off n : Nat), (entriesOf ls off n).length = min ls.length n := by
  induction ls with
  | nil => intro off n; simp [entriesOf]
  | cons l ls ih =>
    intro off n
    cases n with
    | zero => simp [entriesOf]
    | succ m => simp [entriesOf, ih, Nat.succ_min_succ]

theorem map_fst_pairsOf (ls : List (List Char)) :
    ∀ (off n : Nat),
      (pairsOf ls off n).map Prod.fst = (entriesOf ls off n).map Entry.off := by
  induction ls with
  | nil => intro off n; simp [entriesOf, pairsOf]
  | cons l ls ih =>
    intro off n
    cases n with
    | zero => simp [entriesOf, pairsOf]
    | succ m => simp [entriesOf, pairsOf, ih]

theorem entriesOf_of_le (ls : List (List Char)) :
    ∀ (off n : Nat), ls.length ≤ n → entriesOf ls off n = entriesOf ls off ls.length := by
  induction ls with
  | nil => intro off n _; simp [entriesOf]
  | cons l ls ih =>
    intro off n hn
    cases n with
    | zero => simp at hn
    | succ m =>
      simp only [entriesOf, List.length_cons]
      rw [ih _ m (by simpa using hn), ih _ ls.length (Nat.le_refl _)]

/-- The indexing loop on a file of well-formed lines (non-blank, short
enough for the buffer, no stray terminators, each containing a pipe)
records exactly one entry per line at the running line-start offset. -/
theorem buildIndexAux_joinLines :
    ∀ (ls : List (List Char)) (fuel off : Nat) (acc : List Entry),
      (∀ l ∈ ls, l ≠ [] ∧ l.length ≤ LINE_BUF_LEN - 2 ∧ '\n' ∉ l ∧ '\r' ∉ l ∧
        findPipe l ≠ none) →
      ls.length < fuel → acc.length ≤ MAX_VERSES →
      buildIndexAux fuel (joinLines ls) off acc
        = acc ++ entriesOf ls off (MAX_VERSES - acc.length) := by
  intro ls
  induction ls with
  | nil =>
    intro fuel off acc _ hfuel _
    cases fuel with
    | zero => omega
    | succ n =>
      rw [joinLines_nil, buildIndexAux]
      by_cases hcap : MAX_VERSES ≤ acc.length
      · rw [if_pos hcap]; simp [entriesOf]
      · rw [if_neg hcap]
        rw [readLine]
        have : ¬ LINE_BUF_LEN - 1 ≤ 0 := by simp [LINE_BUF_LEN]
        rw [if_neg this]
        simp [entriesOf]
  | cons l ls ih =>
    intro fuel off acc hgood hfuel hcap0
    obtain ⟨hne, hle, hnl, hcr, hpipe⟩ := hgood l (List.mem_cons_self l ls)
    cases fuel with
    | zero => simp at hfuel
    | succ n =>
      rw [joinLines_cons, buildIndexAux]
      by_cases hcap : MAX_VERSES ≤ acc.length
      · rw [if_pos hcap]
        have : MAX_VERSES - acc.length = 0 := by omega
        rw [this]; simp [entriesOf]
      · rw [if_neg hcap]
        have hrl := readLine_cons_nl (LINE_BUF_LEN - 1) l 0 (joinLines ls) hnl hcr
          (by simp only [Nat.zero_add]; simp only [LINE_BUF_LEN] at hle ⊢; omega)
        simp only [hrl]
        have hle' : l.isEmpty = false := by
          cases l with
          | nil => exact absurd rfl hne
          | cons a t => rfl
        rw [hle']
        simp only [Bool.false_eq_true, if_false]
        cases hp : findPipe l with
        | none => exact absurd hp hpipe
        | some p =>
          simp only [Bool.false_eq_true, if_false]
          have hrec := ih n (off + (l.length + 1))
            (acc ++ [⟨off, l.take (min p (REF_LEN - 1))⟩])
            (fun x hx => hgood x (List.mem_cons_of_mem l hx))
            (by simp at hfuel; omega)
            (by simp only [List.length_append, List.length_singleton]; omega)
          rw [hrec]
          obtain ⟨m, hm⟩ : ∃ m, MAX_VERSES - acc.length = m + 1 :=
            ⟨MAX_VERSES - acc.length - 1, by simp only [MAX_VERSES] at hcap ⊢; omega⟩
          rw [hm]
          simp only [entriesOf, List.append_assoc, List.singleton_append]
          have hm' : MAX_VERSES - (acc ++ [(⟨off, l.take (min p (REF_LEN - 1))⟩ : Entry)]).length = m := by
            simp only [List.length_append, List.length_singleton]
            omega
          rw [hm']
          have : refOf l = l.take (min p (REF_LEN - 1)) := by rw [refOf, hp]
          rw [this]
          have : off + (l.length + 1) = off + l.length + 1 := by omega
          rw [this]

/-- The search pass's ordinal walk on a file of well-formed lines
counts exactly one ordinal per line at the running line-start offset. -/
theorem searchWalk_joinLines :
    ∀ (ls : List (List Char)) (fuel off cnt : Nat),
      (∀ l ∈ ls, l ≠ [] ∧ l.length ≤ LINE_BUF_LEN - 2 ∧ '\n' ∉ l ∧ '\r' ∉ l) →
      ls.length < fuel →
      searchWalk fuel (joinLines ls) off cnt = pairsOf ls off cnt := by
  intro ls
  induction ls with
  | nil =>
    intro fuel off cnt _ hfuel
    cases fuel with
    | zero => omega
    | succ n =>
      rw [joinLines_nil, searchWalk]
      by_cases hcnt : cnt = 0
      · rw [if_pos hcnt, hcnt]; simp [pairsOf]
      · rw [if_neg hcnt]
        rw [readLine]
        have : ¬ LINE_BUF_LEN - 1 ≤ 0 := by simp [LINE_BUF_LEN]
        rw [if_neg this]
        simp [pairsOf]
  | cons l ls ih =>
    intro fuel off cnt hgood hfuel
    obtain ⟨hne, hle, hnl, hcr⟩ := hgood l (List.mem_cons_self l ls)
    cases fuel with
    | zero => simp at hfuel
    | succ n =>
      rw [joinLines_cons, searchWalk]
      cases cnt with
      | zero => rw [if_pos rfl]; simp [pairsOf]
      | succ m =>
        rw [if_neg (Nat.succ_ne_zero m)]
        have hrl := readLine_cons_nl (LINE_BUF_LEN - 1) l 0 (joinLines ls) hnl hcr
          (by simp only [Nat.zero_add]; simp only [LINE_BUF_LEN] at hle ⊢; omega)
        simp only [hrl]
        have hle' : l.isEmpty = false := by
          cases l with
          | nil => exact absurd rfl hne
          | cons a t => rfl
        rw [hle']
        simp only [Bool.false_eq_true, if_false, Nat.succ_sub_one]
        rw [ih n (off + (l.length + 1)) m
          (fun x hx => hgood x (List.mem_cons_of_mem l hx)) (by simp at hfuel; omega)]
        simp only [pairsOf]
        have : off + (l.length + 1) = off + l.length + 1 := by omega
        rw [this]

/-- C4 fails as stated: on the file `A\nB|C|D\n` the verse index skips
the pipe-less line `A` but the search pass counts it, so ordinal 0 of
the search walk starts at byte 0 while index entry 0 starts at byte 2. -/
theorem claim_C4_counterexample :
    (searchWalk (("A\nB|C|D\n".toList).length + 1) "A\nB|C|D\n".toList 0
        (buildIndex "A\nB|C|D\n".toList).length).map Prod.fst
      ≠ (buildIndex "A\nB|C|D\n".toList).map Entry.off := by decide

/-- C4 (amended): for corpus files whose physical lines all are
non-blank, contain a `'|'` delimiter, fit the line buffer
(≤ `LINE_BUF_LEN - 2` content bytes) and contain no stray terminator
bytes, the search pass's ordinal walk and the verse index assign the
same numbering: the line counted at each ordinal starts at exactly the
byte offset stored in the index entry of the same position. -/
theorem claim_C4 (ls : List (List Char))
    (hgood : ∀ l ∈ ls, l ≠ [] ∧ l.length ≤ LINE_BUF_LEN - 2 ∧ '\n' ∉ l ∧ '\r' ∉ l ∧
      findPipe l ≠ none) :
    (searchWalk ((joinLines ls).length + 1) (joinLines ls) 0
        (buildIndex (joinLines ls)).length).map Prod.fst
      = (buildIndex (joinLines ls)).map Entry.off := by
  have hidx : buildIndex (joinLines ls) = entriesOf ls 0 MAX_VERSES := by
    rw [buildIndex, buildIndexAux_joinLines ls ((joinLines ls).length + 1) 0 [] hgood
      (Nat.lt_succ_of_le (length_le_joinLines ls)) (by simp)]
    simp
  rw [hidx, searchWalk_joinLines ls ((joinLines ls).length + 1) 0 _
    (fun l hl => ⟨(hgood l hl).1, (hgood l hl).2.1, (hgood l hl).2.2.1, (hgood l hl).2.2.2.1⟩)
    (Nat.lt_succ_of_le (length_le_joinLines ls))]
  rw [map_fst_pairsOf, entriesOf_length]
  by_cases hc : ls.length ≤ MAX_VERSES
  · rw [Nat.min_eq_left hc, entriesOf_of_le ls 0 MAX_VERSES hc]
  · rw [Nat.min_eq_right (by omega)]

-- ============================================================
-- C5: word-wrap idempotence
-- ============================================================

theorem scanBrk_le (t : List Char) : ∀ c, scanBrk t c ≤ c := by
  intro c
  induction c with
  | zero => simp [scanBrk]
  | succ b ih =>
    by_cases hsp : t[b + 1]? = some ' '
    · rw [scanBrk, if_pos hsp]
    · rw [scanBrk, if_neg hsp]; omega

theorem scanBrk_space (t : List Char) :
    ∀ c, scanBrk t c ≠ 0 → t[scanBrk t c]? = some ' ' := by
  intro c
  induction c with
  | zero => intro h; simp [scanBrk] at h
  | succ b ih =>
    by_cases hsp : t[b + 1]? = some ' '
    · rw [scanBrk, if_pos hsp]; intro _; exact hsp
    · rw [scanBrk, if_neg hsp]; exact ih

theorem scanBrk_none_above (t : List Char) :
    ∀ c j, scanBrk t c < j → j ≤ c → t[j]? ≠ some ' ' := by
  intro c
  induction c with
  | zero => intro j h1 h2; omega
  | succ b ih =>
    intro j h1 h2
    by_cases hsp : t[b + 1]? = some ' '
    · rw [scanBrk, if_pos hsp] at h1; omega
    · rw [scanBrk, if_neg hsp] at h1
      by_cases hj : j = b + 1
      · subst hj; exact hsp
      · exact ih j h1 (by omega)

theorem scanBrk_eq_of (t : List Char) (p : Nat) (hp : t[p]? = some ' ') (hp1 : 1 ≤ p) :
    ∀ c, p ≤ c → (∀ j, p < j → j ≤ c → t[j]? ≠ some ' ') → scanBrk t c = p := by
  intro c
  induction c with
  | zero => intro h _; omega
  | succ b ih =>
    intro hle hnone
    by_cases hj : p = b + 1
    · subst hj; rw [scanBrk, if_pos hp]
    · have hnsp : ¬ t[b + 1]? = some ' ' := hnone (b + 1) (by omega) (Nat.le_refl _)
      rw [scanBrk, if_neg hnsp]
      exact ih (by omega) (fun j h1 h2 => hnone j h1 (by omega))

theorem findBrk_pos (t : List Char) (cols : Nat) (h : 1 ≤ cols) :
    1 ≤ findBrk t cols := by
  by_cases hb : scanBrk t cols = 0
  · simp [findBrk, hb]; omega
  · simp [findBrk, hb]; omega

theorem findBrk_le (t : List Char) (cols : Nat) : findBrk t cols ≤ cols := by
  by_cases hb : scanBrk t cols = 0
  · simp [findBrk, hb]
  · simp [findBrk, hb]; exact scanBrk_le t cols

theorem findBrk_eq_of (t : List Char) (p cols : Nat) (hp : t[p]? = some ' ')
    (hp1 : 1 ≤ p) (hple : p ≤ cols)
    (hnone : ∀ j, p < j → j ≤ cols → t[j]? ≠ some ' ') : findBrk t cols = p := by
  have hs := scanBrk_eq_of t p hp hp1 cols hple hnone
  simp [findBrk, hs]
  omega

theorem wrapAux_nil (k cols : Nat) : wrapAux k [] cols = [] := by
  cases k <;> rfl

/-- Shape of the first emitted line: a prefix of the source, length in
`[1, cols]`, and at least `m + 1` long whenever the first `m + 1`
source chars contain no space (the backward scan cannot break before a
space). -/
theorem wrapAux_first (k cols : Nat) (hcols : 1 ≤ cols) (t : List Char)
    (ht : ¬ t.isEmpty = true) :
    ∃ l L, wrapAux (k + 1) t cols = l :: L ∧ l = t.take l.length ∧
      1 ≤ l.length ∧ l.length ≤ cols ∧
      ∀ m, m + 1 ≤ cols → m + 1 ≤ t.length → (∀ i, i ≤ m → t[i]? ≠ some ' ') →
        m + 1 ≤ l.length := by
  have htne : t ≠ [] := by simpa [List.isEmpty_iff] using ht
  rw [wrapAux, if_neg ht]
  by_cases hfit : t.length ≤ cols
  · rw [if_pos hfit]
    exact ⟨t, [], rfl, (List.take_length t).symm, List.length_pos.mpr htne, hfit,
      fun m _ hm _ => hm⟩
  · rw [if_neg hfit]
    have hbrkle : findBrk t cols ≤ cols := findBrk_le t cols
    have hbrkpos : 1 ≤ findBrk t cols := findBrk_pos t cols hcols
    have hlen : (t.take (findBrk t cols)).length = findBrk t cols := by
      rw [List.length_take]; omega
    refine ⟨t.take (findBrk t cols), _, rfl, by rw [hlen], by rw [hlen]; omega,
      by rw [hlen]; omega, ?_⟩
    intro m hm1 hm2 hnone
    rw [hlen]
    by_cases hb : scanBrk t cols = 0
    · simp [findBrk, hb]; omega
    · have heq : findBrk t cols = scanBrk t cols := by simp [findBrk, hb]
      rw [heq]
      by_contra hlt
      push_neg at hlt
      exact hnone (scanBrk t cols) (by omega) (scanBrk_space t cols hb)

/-- Re-wrapping the space-rejoined output of the wrap loop at the same
width reproduces it, line by line. -/
theorem wrapAux_idem (cols : Nat) (hcols : 1 ≤ cols) :
    ∀ (k : Nat) (t : List Char),
      wrapAux k (joinSp (wrapAux k t cols)) cols = wrapAux k t cols := by
  intro k
  induction k with
  | zero => intro t; rfl
  | succ k ih =>
    intro t
    by_cases ht : t.isEmpty = true
    · have : t = [] := by simpa [List.isEmpty_iff] using ht
      subst this; rfl
    · by_cases hfit : t.length ≤ cols
      · have hrhs : wrapAux (k + 1) t cols = [t] := by
          rw [wrapAux, if_neg ht, if_pos hfit]
        rw [hrhs]
        rw [show joinSp [t] = t from rfl]
        exact hrhs
      · -- break case
        have htlen : cols < t.length := by omega
        obtain ⟨brk, hbrkdef⟩ : ∃ b, findBrk t cols = b := ⟨_, rfl⟩
        have hbrkle : brk ≤ cols := hbrkdef ▸ findBrk_le t cols
        have hbrkpos : 1 ≤ brk := hbrkdef ▸ findBrk_pos t cols hcols
        obtain ⟨rest', hrestdef⟩ :
            ∃ r, (if (t.drop brk).head? = some ' '
              then (t.drop brk).tail else t.drop brk) = r := ⟨_, rfl⟩
        have hrhs : wrapAux (k + 1) t cols = t.take brk :: wrapAux k rest' cols := by
          rw [wrapAux, if_neg ht, if_neg hfit]
          simp only [hbrkdef, hrestdef]
        rw [hrhs]
        have hlentake : (t.take brk).length = brk := by
          rw [List.length_take]; omega
        cases hL : wrapAux k rest' cols with
        | nil =>
          rw [show joinSp [t.take brk] = t.take brk from rfl]
          rw [wrapAux, if_neg (by
            intro h
            have h0 : t.take brk = [] := by simpa [List.isEmpty_iff] using h
            rw [h0] at hlentake
            simp at hlentake
            omega)]
          rw [if_pos (by omega)]
        | cons l₂ L₂ =>
          obtain ⟨k', rfl⟩ : ∃ k', k = k' + 1 := by
            cases k with
            | zero =>
              rw [show wrapAux 0 rest' cols = ([] : List (List Char)) from rfl] at hL
              simp at hL
            | succ k' => exact ⟨k', rfl⟩
          have hrest_ne : ¬ rest'.isEmpty = true := by
            intro h
            have hre : rest' = [] := by simpa [List.isEmpty_iff] using h
            rw [hre, wrapAux_nil] at hL
            simp at hL
          obtain ⟨l₂', L₂', hL', htake₂, hpos₂, hle₂, hlow₂⟩ :=
            wrapAux_first k' cols hcols rest' hrest_ne
          have hcc : l₂ :: L₂ = l₂' :: L₂' := hL.symm.trans hL'
          injection hcc with he1 he2
          subst he1
          subst he2
          obtain ⟨u, hu⟩ : ∃ u, joinSp (l₂ :: L₂) = l₂ ++ u := by
            cases L₂ with
            | nil => exact ⟨[], by simp [joinSp]⟩
            | cons y r => exact ⟨' ' :: joinSp (y :: r), by simp [joinSp]⟩
          rw [show joinSp (t.take brk :: l₂ :: L₂)
            = t.take brk ++ ' ' :: joinSp (l₂ :: L₂) from rfl]
          -- in a space break the eaten space sits right at the break point
          have hspacecase : brk < cols → brk = scanBrk t cols ∧
              rest' = t.drop (brk + 1) := by
            intro hlt
            by_cases hsb : scanBrk t cols = 0
            · exfalso
              have : brk = cols := by rw [← hbrkdef]; simp [findBrk, hsb]
              omega
            · have hbs : brk = scanBrk t cols := by
                rw [← hbrkdef]; simp [findBrk, hsb]
              have hspace : t[brk]? = some ' ' := by
                rw [hbs]; exact scanBrk_space t cols hsb
              refine ⟨hbs, ?_⟩
              rw [← hrestdef, if_pos (by rw [List.head?_drop]; exact hspace),
                List.tail_drop]
          -- the recursive head line reaches past the scan window
          have hlow : cols - brk ≤ l₂.length := by
            by_cases hcase : brk < cols
            · obtain ⟨hbs, hrest'⟩ := hspacecase hcase
              have hmlen : cols - brk - 1 + 1 ≤ rest'.length := by
                rw [hrest', List.length_drop]; omega
              have hwin : ∀ i, i ≤ cols - brk - 1 → rest'[i]? ≠ some ' ' := by
                intro i hi
                rw [hrest', List.getElem?_drop]
                exact scanBrk_none_above t cols (brk + 1 + i) (by omega) (by omega)
              have := hlow₂ (cols - brk - 1) (by omega) hmlen hwin
              omega
            · omega
          have hlength : cols < (t.take brk ++ ' ' :: joinSp (l₂ :: L₂)).length := by
            rw [List.length_append, hlentake, List.length_cons, hu, List.length_append]
            omega
          have hsp' : (t.take brk ++ ' ' :: joinSp (l₂ :: L₂))[brk]? = some ' ' := by
            rw [List.getElem?_append_right (by omega : (t.take brk).length ≤ brk),
              hlentake]
            simp
          have hwindow : ∀ j, brk < j → j ≤ cols →
              (t.take brk ++ ' ' :: joinSp (l₂ :: L₂))[j]? ≠ some ' ' := by
            intro j hj1 hj2
            obtain ⟨hbs, hrest'⟩ := hspacecase (by omega)
            have hidx1 : (t.take brk ++ ' ' :: joinSp (l₂ :: L₂))[j]?
                = (' ' :: joinSp (l₂ :: L₂))[j - brk]? := by
              rw [List.getElem?_append_right (by omega : (t.take brk).length ≤ j),
                hlentake]
            have hidx2 : (' ' :: joinSp (l₂ :: L₂))[j - brk]?
                = (joinSp (l₂ :: L₂))[j - brk - 1]? := by
              obtain ⟨i, hi⟩ : ∃ i, j - brk = i + 1 := ⟨j - brk - 1, by omega⟩
              rw [hi, List.getElem?_cons_succ]
              simp
            have hidx3 : (joinSp (l₂ :: L₂))[j - brk - 1]? = l₂[j - brk - 1]? := by
              rw [hu]
              exact List.getElem?_append_left (by omega)
            have hidx4 : l₂[j - brk - 1]? = rest'[j - brk - 1]? := by
              conv_lhs => rw [htake₂]
              exact List.getElem?_take_of_lt (by omega)
            rw [hidx1, hidx2, hidx3, hidx4, hrest', List.getElem?_drop]
            exact scanBrk_none_above t cols (brk + 1 + (j - brk - 1)) (by omega) (by omega)
          have hfb : findBrk (t.take brk ++ ' ' :: joinSp (l₂ :: L₂)) cols = brk :=
            findBrk_eq_of _ brk cols hsp' hbrkpos hbrkle hwindow
          rw [wrapAux, if_neg (by
              intro h
              have h0 : (t.take brk ++ ' ' :: joinSp (l₂ :: L₂)) = [] := by
                simp only [List.isEmpty_iff] at h
                exact h
              rw [h0] at hlength
              simp at hlength),
            if_neg (by omega)]
          simp only [hfb]
          have hgen : ∀ (x u : List Char), x.length = brk →
              (x ++ u).take brk = x ∧ (x ++ u).drop brk = u := by
            intro x u hx
            rw [← hx]
            exact ⟨List.take_left x u, List.drop_left x u⟩
          have htk := (hgen (t.take brk) (' ' :: joinSp (l₂ :: L₂)) hlentake).1
          have hdr := (hgen (t.take brk) (' ' :: joinSp (l₂ :: L₂)) hlentake).2
          rw [htk, hdr]
          rw [show (' ' :: joinSp (l₂ :: L₂)).head? = some ' ' from rfl]
          rw [if_pos rfl]
          rw [show (' ' :: joinSp (l₂ :: L₂)).tail = joinSp (l₂ :: L₂) from rfl]
          have hrec := ih rest'
          rw [hL] at hrec
          rw [hrec]

/-- C5: `word_wrap` is deterministic and idempotent — rejoining the
emitted lines (one space per break) and wrapping again at the same
column width yields the identical line sequence.  Determinism is
inherent: the embedding is a pure function of `(text, cols)`. -/
theorem claim_C5 (text : List Char) (cols : Nat) :
    wordWrap (joinSp (wordWrap text cols)) cols = wordWrap text cols := by
  rw [wordWrap, wordWrap]
  apply wrapAux_idem
  split
  · split
    · simp [WRAP_LINE_LEN]
    · simp_all [WRAP_LINE_LEN]
  · split
    · simp [WRAP_LINE_LEN]
    · simp_all [WRAP_LINE_LEN]
      omega

/-- Witness for the amended C4 at a concrete two-line corpus. -/
theorem claim_C4_witness :
    (∀ l ∈ ["Gen 1:1|Genesis|a".toList, "Gen 1:2|Genesis|b".toList],
      l ≠ [] ∧ l.length ≤ LINE_BUF_LEN - 2 ∧ '\n' ∉ l ∧ '\r' ∉ l ∧ findPipe l ≠ none) ∧
    (searchWalk ((joinLines ["Gen 1:1|Genesis|a".toList, "Gen 1:2|Genesis|b".toList]).length + 1)
        (joinLines ["Gen 1:1|Genesis|a".toList, "Gen 1:2|Genesis|b".toList]) 0
        (buildIndex (joinLines ["Gen 1:1|Genesis|a".toList, "Gen 1:2|Genesis|b".toList])).length).map
        Prod.fst
      = (buildIndex (joinLines ["Gen 1:1|Genesis|a".toList, "Gen 1:2|Genesis|b".toList])).map
          Entry.off :=
  ⟨by decide, claim_C4 _ (by decide)⟩

-- ============================================================
-- C6: bookmark toggle involution, capacity, persistence
-- ============================================================

theorem removeFirst_eq_erase : ∀ (bm : List Nat) (v : Nat), removeFirst bm v = bm.erase v := by
  intro bm v
  induction bm with
  | nil => rfl
  | cons y ys ih =>
    rw [removeFirst, List.erase_cons]
    by_cases hy : y = v
    · rw [if_pos hy, if_pos (by simpa using hy)]
    · rw [if_neg hy, if_neg (by simpa using hy), ih]

theorem removeFirst_length (bm : List Nat) (v : Nat) (h : v ∈ bm) :
    (removeFirst bm v).length + 1 = bm.length := by
  rw [removeFirst_eq_erase]
  exact List.length_erase_add_one h

theorem removeFirst_append_not_mem : ∀ (bm : List Nat) (v : Nat), v ∉ bm →
    removeFirst (bm ++ [v]) v = bm := by
  intro bm v
  induction bm with
  | nil => intro _; simp [removeFirst]
  | cons y ys ih =>
    intro h
    simp only [List.mem_cons, not_or] at h
    rw [List.cons_append, removeFirst, if_neg (fun he => h.1 he.symm), ih h.2]

theorem toggle_bmark_length (bm : List Nat) (v : Nat) (h : bm.length ≤ MAX_BOOKMARKS) :
    ((toggle_bmark bm v).1).length ≤ MAX_BOOKMARKS := by
  rw [toggle_bmark]
  by_cases hv : v ∈ bm
  · rw [if_pos hv]
    have := removeFirst_length bm v hv
    simp only
    omega
  · rw [if_neg hv]
    by_cases hlen : bm.length < MAX_BOOKMARKS
    · rw [if_pos hlen]
      simp only [List.length_append, List.length_singleton]
      omega
    · rw [if_neg hlen]
      exact h

theorem toggle_bmark_mem (bm : List Nat) (v : Nat) (h : v ∈ bm) :
    toggle_bmark bm v = (removeFirst bm v, some (bmarksFileOf (removeFirst bm v))) := by
  rw [toggle_bmark, if_pos h]

theorem toggle_bmark_add (bm : List Nat) (v : Nat) (h1 : v ∉ bm)
    (h2 : bm.length < MAX_BOOKMARKS) :
    toggle_bmark bm v = (bm ++ [v], some (bmarksFileOf (bm ++ [v]))) := by
  rw [toggle_bmark, if_neg h1, if_pos h2]

theorem toggle_bmark_full (bm : List Nat) (v : Nat) (h1 : v ∉ bm)
    (h2 : ¬ bm.length < MAX_BOOKMARKS) : toggle_bmark bm v = (bm, none) := by
  rw [toggle_bmark, if_neg h1, if_neg h2]

theorem toggle_fold_length (xs : List Nat) :
    ∀ bm : List Nat, bm.length ≤ MAX_BOOKMARKS →
      (xs.foldl (fun b v => (toggle_bmark b v).1) bm).length ≤ MAX_BOOKMARKS := by
  induction xs with
  | nil => intro bm h; simpa using h
  | cons v vs ih =>
    intro bm h
    rw [List.foldl_cons]
    exact ih _ (toggle_bmark_length bm v h)

/-- C6: for a duplicate-free bookmark set within capacity, toggling the
same id twice restores its original membership status; the count stays
within `MAX_BOOKMARKS` (75) under any sequence of toggles; and every
toggle that changes the set immediately persists the full new set
(the second component is the file `bmarks_save` writes). -/
theorem claim_C6 (bm : List Nat) (x : Nat) (hnd : bm.Nodup)
    (hcap : bm.length ≤ MAX_BOOKMARKS) :
    ((x ∈ (toggle_bmark (toggle_bmark bm x).1 x).1) ↔ x ∈ bm) ∧
    (∀ xs : List Nat,
      (xs.foldl (fun b v => (toggle_bmark b v).1) bm).length ≤ MAX_BOOKMARKS) ∧
    (∀ y, (toggle_bmark bm y).1 ≠ bm →
      (toggle_bmark bm y).2 = some (bmarksFileOf (toggle_bmark bm y).1)) := by
  refine ⟨?_, fun xs => toggle_fold_length xs bm hcap, ?_⟩
  · by_cases hx : x ∈ bm
    · rw [toggle_bmark_mem bm x hx]
      simp only
      have hnot : x ∉ removeFirst bm x := by
        rw [removeFirst_eq_erase]
        exact hnd.not_mem_erase
      have hlt : (removeFirst bm x).length < MAX_BOOKMARKS := by
        have := removeFirst_length bm x hx
        omega
      rw [toggle_bmark_add _ x hnot hlt]
      simp [hx]
    · by_cases hlen : bm.length < MAX_BOOKMARKS
      · rw [toggle_bmark_add bm x hx hlen]
        simp only
        have hmem : x ∈ bm ++ [x] := by simp
        rw [toggle_bmark_mem _ x hmem]
        simp only
        rw [removeFirst_append_not_mem bm x hx]
      · rw [toggle_bmark_full bm x hx hlen]
        simp only
        rw [toggle_bmark_full bm x hx hlen]
  · intro y hne
    by_cases hy : y ∈ bm
    · rw [toggle_bmark_mem bm y hy]
    · by_cases hlen : bm.length < MAX_BOOKMARKS
      · rw [toggle_bmark_add bm y hy hlen]
      · rw [toggle_bmark_full bm y hy hlen] at hne
        exact absurd rfl hne

-- ============================================================
-- C8: picker cycle/clamp over the bounds tables
-- ============================================================

set_option maxRecDepth 8000 in
theorem chapters_pos : ∀ b, b < 66 → 1 ≤ chaptersOf b := by decide

set_option maxRecDepth 8000 in
theorem chapters_le : ∀ b, b < 66 → chaptersOf b ≤ 150 := by decide

set_option maxRecDepth 4000 in
theorem verseCounts_pos : ∀ x ∈ VERSE_COUNTS, 1 ≤ x := by
  intro x hx
  rw [VERSE_COUNTS] at hx
  rcases List.mem_append.mp hx with hx | hx
  · rcases List.mem_append.mp hx with hx | hx
    · rcases List.mem_append.mp hx with hx | hx
      · exact (by decide : ∀ x ∈ VERSE_COUNTS_A, 1 ≤ x) x hx
      · exact (by decide : ∀ x ∈ VERSE_COUNTS_B, 1 ≤ x) x hx
    · exact (by decide : ∀ x ∈ VERSE_COUNTS_C, 1 ≤ x) x hx
  · exact (by decide : ∀ x ∈ VERSE_COUNTS_D, 1 ≤ x) x hx

set_option maxRecDepth 4000 in
theorem verseCounts_len : VERSE_COUNTS.length = 1189 := by
  have hA : VERSE_COUNTS_A.length = 300 := by decide
  have hB : VERSE_COUNTS_B.length = 300 := by decide
  have hC : VERSE_COUNTS_C.length = 300 := by decide
  have hD : VERSE_COUNTS_D.length = 289 := by decide
  rw [VERSE_COUNTS]
  simp only [List.length_append, hA, hB, hC, hD]

set_option maxRecDepth 4000 in
theorem offsets_fit : ∀ b, b < 66 → VERSE_COUNT_OFFSET.getD b 0 + chaptersOf b ≤ 1189 := by
  decide

/-- Every in-range `(book, chapter)` lookup lands inside `VERSE_COUNTS`
and yields a positive verse count. -/
theorem verses_pos (b c : Nat) (hb : b < 66) (_hc1 : 1 ≤ c) (hc2 : c ≤ chaptersOf b) :
    1 ≤ book_chapter_verses b c := by
  rw [book_chapter_verses]
  have hfit := offsets_fit b hb
  have hidx : VERSE_COUNT_OFFSET.getD b 0 + c - 1 < VERSE_COUNTS.length := by
    rw [verseCounts_len]; omega
  rw [List.getD_eq_getElem VERSE_COUNTS 0 hidx]
  exact verseCounts_pos _ (List.getElem_mem hidx)

/-- Clamping the chapter and then the verse after a book change lands
in the valid ranges of the new book. -/
theorem stepBook_core (b2 c v : Nat) (hb2 : b2 < 66) (hc : 1 ≤ c) (hv : 1 ≤ v) :
    1 ≤ (if chaptersOf b2 < c then chaptersOf b2 else c) ∧
    (if chaptersOf b2 < c then chaptersOf b2 else c) ≤ chaptersOf b2 ∧
    1 ≤ (if book_chapter_verses b2 (if chaptersOf b2 < c then chaptersOf b2 else c) < v
        then book_chapter_verses b2 (if chaptersOf b2 < c then chaptersOf b2 else c) else v) ∧
    (if book_chapter_verses b2 (if chaptersOf b2 < c then chaptersOf b2 else c) < v
        then book_chapter_verses b2 (if chaptersOf b2 < c then chaptersOf b2 else c) else v)
      ≤ book_chapter_verses b2 (if chaptersOf b2 < c then chaptersOf b2 else c) := by
  have hch := chapters_pos b2 hb2
  have hc1 : 1 ≤ (if chaptersOf b2 < c then chaptersOf b2 else c) := by split <;> omega
  have hc2 : (if chaptersOf b2 < c then chaptersOf b2 else c) ≤ chaptersOf b2 := by
    split <;> omega
  have hvp := verses_pos b2 _ hb2 hc1 hc2
  refine ⟨hc1, hc2, ?_, ?_⟩
  · by_cases hx : book_chapter_verses b2 (if chaptersOf b2 < c then chaptersOf b2 else c) < v
    · rw [if_pos hx]; exact hvp
    · rw [if_neg hx]; exact hv
  · by_cases hx : book_chapter_verses b2 (if chaptersOf b2 < c then chaptersOf b2 else c) < v
    · rw [if_pos hx]
    · rw [if_neg hx]; omega

set_option maxRecDepth 4000 in
/-- C8: for every picker state with book in range and chapter and verse
at least 1, stepping the book index cycles past either end of the 66
books and then clamps the chapter into `[1, chapters(book)]` and the
verse into `[1, verses(book, chapter)]` (where `book_chapter_verses`
is exactly the `VERSE_COUNTS`/`VERSE_COUNT_OFFSET` lookup); chapter
decrement below 1 in Genesis cycles to 50, verse decrement below 1 in
Genesis 1 cycles to 31, switching to Psalms with chapter 40 keeps
chapter 40, and switching to Ruth with chapter 40 clamps to chapter 4
and verse 22. -/
theorem claim_C8 (b c v : Nat) (hb : b < 66) (hc : 1 ≤ c) (hv : 1 ≤ v) :
    (∃ b2 c2 v2, stepBookNext (b, c, v) = (b2, c2, v2) ∧
      b2 = (if b < 65 then b + 1 else 0) ∧ b2 < 66 ∧
      1 ≤ c2 ∧ c2 ≤ chaptersOf b2 ∧ 1 ≤ v2 ∧ v2 ≤ book_chapter_verses b2 c2) ∧
    (∃ b2 c2 v2, stepBookPrev (b, c, v) = (b2, c2, v2) ∧
      b2 = (if 0 < b then b - 1 else 65) ∧ b2 < 66 ∧
      1 ≤ c2 ∧ c2 ≤ chaptersOf b2 ∧ 1 ≤ v2 ∧ v2 ≤ book_chapter_verses b2 c2) ∧
    stepChapterPrev (0, 1, 1) = (0, 50, 1) ∧
    stepVersePrev (0, 1, 1) = (0, 1, 31) ∧
    stepBookNext (17, 40, 1) = (18, 40, 1) ∧
    stepBookNext (6, 40, 25) = (7, 4, 22) := by
  refine ⟨?_, ?_, by decide, by decide, by decide, by decide⟩
  · have hb2 : (if b < 65 then b + 1 else 0) < 66 := by split <;> omega
    obtain ⟨h1, h2, h3, h4⟩ := stepBook_core (if b < 65 then b + 1 else 0) c v hb2 hc hv
    exact ⟨_, _, _, rfl, rfl, hb2, h1, h2, h3, h4⟩
  · have hb2 : (if 0 < b then b - 1 else 65) < 66 := by split <;> omega
    obtain ⟨h1, h2, h3, h4⟩ := stepBook_core (if 0 < b then b - 1 else 65) c v hb2 hc hv
    exact ⟨_, _, _, rfl, rfl, hb2, h1, h2, h3, h4⟩

set_option maxRecDepth 4000 in
/-- Witness for C8 at the state (Judges, 40, 25). -/
theorem claim_C8_witness :
    6 < 66 ∧ 1 ≤ 40 ∧ 1 ≤ 25 ∧
    ((∃ b2 c2 v2, stepBookNext (6, 40, 25) = (b2, c2, v2) ∧
      b2 = (if 6 < 65 then 6 + 1 else 0) ∧ b2 < 66 ∧
      1 ≤ c2 ∧ c2 ≤ chaptersOf b2 ∧ 1 ≤ v2 ∧ v2 ≤ book_chapter_verses b2 c2) ∧
    (∃ b2 c2 v2, stepBookPrev (6, 40, 25) = (b2, c2, v2) ∧
      b2 = (if 0 < 6 then 6 - 1 else 65) ∧ b2 < 66 ∧
      1 ≤ c2 ∧ c2 ≤ chaptersOf b2 ∧ 1 ≤ v2 ∧ v2 ≤ book_chapter_verses b2 c2) ∧
    stepChapterPrev (0, 1, 1) = (0, 50, 1) ∧
    stepVersePrev (0, 1, 1) = (0, 1, 31) ∧
    stepBookNext (17, 40, 1) = (18, 40, 1) ∧
    stepBookNext (6, 40, 25) = (7, 4, 22)) :=
  ⟨by decide, by decide, by decide, claim_C8 6 40 25 (by decide) (by decide) (by decide)⟩

/-- Witness for C6 at the set `{3, 5}` and id `4`. -/
theorem claim_C6_witness :
    ([3, 5] : List Nat).Nodup ∧ ([3, 5] : List Nat).length ≤ MAX_BOOKMARKS ∧
    (((4 ∈ (toggle_bmark (toggle_bmark [3, 5] 4).1 4).1) ↔ 4 ∈ ([3, 5] : List Nat)) ∧
     (∀ xs : List Nat,
       (xs.foldl (fun b v => (toggle_bmark b v).1) [3, 5]).length ≤ MAX_BOOKMARKS) ∧
     (∀ y, (toggle_bmark [3, 5] y).1 ≠ [3, 5] →
       (toggle_bmark [3, 5] y).2 = some (bmarksFileOf (toggle_bmark [3, 5] y).1))) :=
  ⟨by decide, by decide, claim_C6 [3, 5] 4 (by decide) (by decide)⟩

-- ============================================================
-- C9: overlong lines are chunked, not truncated to one record
-- ============================================================

set_option maxRecDepth 8000 in
/-- C9 fails as stated: this single physical line (no terminator in its
322 content bytes) is longer than the 320-byte buffer, and indexing it
produces two entries, because the tail beyond the buffer still contains
a `'|'` and is treated as a fresh line. -/
theorem claim_C9_counterexample :
    '\n' ∉ ("A|".toList ++ List.replicate 318 'x' ++ "|B".toList) ∧
    LINE_BUF_LEN < ("A|".toList ++ List.replicate 318 'x' ++ "|B".toList).length ∧
    (buildIndex (("A|".toList ++ List.replicate 318 'x' ++ "|B".toList) ++ ['\n'])).length
      = 2 := by
  refine ⟨by decide, by decide, by decide⟩

/-- C9 (amended): during indexing, a physical line longer than the line
buffer is never rejected: the indexer consumes exactly
`LINE_BUF_LEN - 1` bytes as one truncated line, records one entry for
that chunk exactly when the chunk contains a `'|'`, and then continues
as if the remainder of the physical line began a new physical line — so
an overlong line can contribute more than one index entry. -/
theorem claim_C9 (l s : List Char) (off : Nat) (acc : List Entry) (fuel : Nat)
    (hn : '\n' ∉ l.take (LINE_BUF_LEN - 1)) (hr : '\r' ∉ l.take (LINE_BUF_LEN - 1))
    (hlen : LINE_BUF_LEN - 1 ≤ l.length) (hcap : acc.length < MAX_VERSES) :
    buildIndexAux (fuel + 1) (l ++ s) off acc
      = buildIndexAux fuel (l.drop (LINE_BUF_LEN - 1) ++ s) (off + (LINE_BUF_LEN - 1))
          (acc ++ (match findPipe (l.take (LINE_BUF_LEN - 1)) with
            | some p => [⟨off, (l.take (LINE_BUF_LEN - 1)).take (min p (REF_LEN - 1))⟩]
            | none => [])) := by
  have hsplit : l ++ s = l.take (LINE_BUF_LEN - 1) ++ (l.drop (LINE_BUF_LEN - 1) ++ s) := by
    rw [← List.append_assoc, List.take_append_drop]
  have htlen : (l.take (LINE_BUF_LEN - 1)).length = LINE_BUF_LEN - 1 := by
    rw [List.length_take]; omega
  have hrl := readLine_full (LINE_BUF_LEN - 1) (l.take (LINE_BUF_LEN - 1)) 0
    (l.drop (LINE_BUF_LEN - 1) ++ s) hn hr (by omega)
  have hne : (l.take (LINE_BUF_LEN - 1)).isEmpty = false := by
    cases hcase : l.take (LINE_BUF_LEN - 1) with
    | nil => rw [hcase] at htlen; simp [LINE_BUF_LEN] at htlen
    | cons a t => rfl
  rw [buildIndexAux, if_neg (by omega)]
  rw [hsplit, hrl]
  dsimp only
  rw [hne]
  simp only [Bool.false_eq_true, if_false]
  cases hp : findPipe (l.take (LINE_BUF_LEN - 1)) with
  | none =>
    rw [htlen]
    try simp
  | some p =>
    rw [htlen]
    try simp

set_option maxRecDepth 8000 in
/-- Witness for the amended C9 on the counterexample line. -/
theorem claim_C9_witness :
    ('\n' ∉ ("A|".toList ++ List.replicate 318 'x' ++ "|B".toList).take (LINE_BUF_LEN - 1)) ∧
    ('\r' ∉ ("A|".toList ++ List.replicate 318 'x' ++ "|B".toList).take (LINE_BUF_LEN - 1)) ∧
    (LINE_BUF_LEN - 1 ≤ ("A|".toList ++ List.replicate 318 'x' ++ "|B".toList).length) ∧
    (([] : List Entry).length < MAX_VERSES) ∧
    buildIndexAux (323 + 1) (("A|".toList ++ List.replicate 318 'x' ++ "|B".toList) ++ ['\n']) 0 []
      = buildIndexAux 323
          (("A|".toList ++ List.replicate 318 'x' ++ "|B".toList).drop (LINE_BUF_LEN - 1) ++ ['\n'])
          (0 + (LINE_BUF_LEN - 1))
          ([] ++ (match findPipe (("A|".toList ++ List.replicate 318 'x' ++ "|B".toList).take (LINE_BUF_LEN - 1)) with
            | some p => [⟨0, (("A|".toList ++ List.replicate 318 'x' ++ "|B".toList).take (LINE_BUF_LEN - 1)).take (min p (REF_LEN - 1))⟩]
            | none => [])) :=
  ⟨by decide, by decide, by decide, by decide,
    claim_C9 _ _ 0 [] 323 (by decide) (by decide) (by decide) (by decide)⟩

-- ============================================================
-- C10: non-numeric bookmark lines load as verse id 0
-- ============================================================

theorem digitsVal_head_nondigit (x : List Char) (a : Nat)
    (h : ∀ c ∈ x.take 1, ¬('0' ≤ c ∧ c ≤ '9')) : digitsVal x a = a := by
  cases x with
  | nil => rfl
  | cons c r =>
    rw [digitsVal, if_neg (h c (by simp))]

theorem atoiI_nondigit (buf : List Char) (h : ∀ c ∈ buf, ¬('0' ≤ c ∧ c ≤ '9')) :
    atoiI buf = 0 := by
  have hsub : ∀ c ∈ buf.dropWhile (fun c => c = ' ' ∨ c = '\t'), ¬('0' ≤ c ∧ c ≤ '9') :=
    fun c hc => h c ((List.dropWhile_sublist _).mem hc)
  rw [atoiI]
  cases hs : buf.dropWhile (fun c => c = ' ' ∨ c = '\t') with
  | nil => rfl
  | cons c r =>
    rw [hs] at hsub
    dsimp only
    by_cases hm : c = '-'
    · rw [if_pos hm]
      rw [digitsVal_head_nondigit r 0
        (fun d hd => hsub d (List.mem_cons_of_mem c (List.mem_of_mem_take hd)))]
      simp
    · rw [if_neg hm]
      by_cases hpl : c = '+'
      · rw [if_pos hpl]
        rw [digitsVal_head_nondigit r 0
          (fun d hd => hsub d (List.mem_cons_of_mem c (List.mem_of_mem_take hd)))]
        simp
      · rw [if_neg hpl]
        rw [digitsVal_head_nondigit (c :: r) 0
          (fun d hd => hsub d (List.mem_of_mem_take hd))]
        simp

theorem bmarksLoadAux_nondigit :
    ∀ (l buf : List Char) (vc : Nat),
      (∀ c ∈ l, ¬('0' ≤ c ∧ c ≤ '9') ∧ c ≠ '\n' ∧ c ≠ '\r') →
      (∀ c ∈ buf, ¬('0' ≤ c ∧ c ≤ '9')) →
      (l ≠ [] ∨ buf ≠ []) → 0 < vc →
      bmarksLoadAux (l ++ ['\n']) buf [] vc = [0] := by
  intro l
  induction l with
  | nil =>
    intro buf vc _ hbuf hne hvc
    have hbne : ¬ buf.isEmpty = true := by
      rcases hne with h | h
      · exact absurd rfl h
      · simpa [List.isEmpty_iff] using h
    rw [List.nil_append, bmarksLoadAux, if_neg (by simp [MAX_BOOKMARKS])]
    rw [if_pos (Or.inl rfl)]
    rw [if_neg hbne]
    rw [atoiI_nondigit buf hbuf]
    rw [show toU16 0 = 0 from rfl, if_pos hvc]
    rfl
  | cons c l ih =>
    intro buf vc hl hbuf _ hvc
    obtain ⟨hcd, hcn, hcr⟩ := hl c (List.mem_cons_self c l)
    rw [List.cons_append, bmarksLoadAux, if_neg (by simp [MAX_BOOKMARKS])]
    rw [if_neg (by simp [hcn, hcr])]
    by_cases hblen : buf.length < 7
    · rw [if_pos hblen]
      exact ih (buf ++ [c]) vc (fun d hd => hl d (List.mem_cons_of_mem c hd))
        (by
          intro d hd
          rcases List.mem_append.mp hd with h | h
          · exact hbuf d h
          · simp only [List.mem_singleton] at h; subst h; exact hcd)
        (Or.inr (by simp)) hvc
    · rw [if_neg hblen]
      exact ih buf vc (fun d hd => hl d (List.mem_cons_of_mem c hd)) hbuf
        (Or.inr (by intro h; rw [h] at hblen; simp [MAX_BOOKMARKS] at hblen)) hvc

/-- C10: a non-empty persisted bookmark line that is not a decimal
integer (here: containing no digit at all) is not rejected — `atoi`
parses it as 0 and, whenever `verse_count > 0`, it is silently kept as
a bookmark of verse id 0. -/
theorem claim_C10 (l : List Char) (vc : Nat) (hne : l ≠ [])
    (hl : ∀ c ∈ l, ¬('0' ≤ c ∧ c ≤ '9') ∧ c ≠ '\n' ∧ c ≠ '\r') (hvc : 0 < vc) :
    bmarksLoad (l ++ ['\n']) vc = [0] := by
  rw [bmarksLoad]
  exact bmarksLoadAux_nondigit l [] vc hl (by simp) (Or.inl hne) hvc

-- ============================================================
-- C7: decimal print/parse round trip
-- ============================================================

theorem digit_char_facts : ∀ m, m < 10 →
    ('0' ≤ Char.ofNat (48 + m) ∧ Char.ofNat (48 + m) ≤ '9' ∧
      (Char.ofNat (48 + m)).toNat - 48 = m ∧
      Char.ofNat (48 + m) ≠ ' ' ∧ Char.ofNat (48 + m) ≠ '\t' ∧
      Char.ofNat (48 + m) ≠ '-' ∧ Char.ofNat (48 + m) ≠ '+' ∧
      Char.ofNat (48 + m) ≠ '\n' ∧ Char.ofNat (48 + m) ≠ '\r' ∧
      Char.ofNat (48 + m) ≠ '=') := by decide

theorem natDecAux_spec : ∀ (fuel n : Nat), n < fuel →
    (∀ c ∈ natDecAux fuel n, '0' ≤ c ∧ c ≤ '9' ∧ c ≠ ' ' ∧ c ≠ '\t' ∧ c ≠ '-' ∧
      c ≠ '+' ∧ c ≠ '\n' ∧ c ≠ '\r' ∧ c ≠ '=') ∧
    natDecAux fuel n ≠ [] := by
  intro fuel
  induction fuel with
  | zero => intro n h; omega
  | succ f ih =>
    intro n hn
    by_cases h10 : n < 10
    · rw [natDecAux, if_pos h10]
      obtain ⟨d1, d2, _, d4, d5, d6, d7, d8, d9, d10⟩ := digit_char_facts n h10
      refine ⟨?_, by simp⟩
      intro c hc
      simp only [List.mem_singleton] at hc
      subst hc
      exact ⟨d1, d2, d4, d5, d6, d7, d8, d9, d10⟩
    · rw [natDecAux, if_neg h10]
      have hdiv : n / 10 < f := by
        have h1 : n / 10 < n := Nat.div_lt_self (by omega) (by omega)
        omega
      obtain ⟨ihm, _⟩ := ih (n / 10) hdiv
      obtain ⟨d1, d2, _, d4, d5, d6, d7, d8, d9, d10⟩ :=
        digit_char_facts (n % 10) (Nat.mod_lt n (by omega))
      refine ⟨?_, by simp⟩
      intro c hc
      rcases List.mem_append.mp hc with h | h
      · exact ihm c h
      · simp only [List.mem_singleton] at h
        subst h
        exact ⟨d1, d2, d4, d5, d6, d7, d8, d9, d10⟩

/-- All chars of `natDec n` are decimal digits and none of the special
bytes the parsers dispatch on. -/
theorem natDec_chars (n : Nat) :
    ∀ c ∈ natDec n, '0' ≤ c ∧ c ≤ '9' ∧ c ≠ ' ' ∧ c ≠ '\t' ∧ c ≠ '-' ∧
      c ≠ '+' ∧ c ≠ '\n' ∧ c ≠ '\r' ∧ c ≠ '=' :=
  (natDecAux_spec (n + 1) n (Nat.lt_succ_self n)).1

theorem natDec_ne_nil (n : Nat) : natDec n ≠ [] :=
  (natDecAux_spec (n + 1) n (Nat.lt_succ_self n)).2

theorem digitsVal_append (xs ys : List Char) :
    ∀ a, (∀ c ∈ xs, '0' ≤ c ∧ c ≤ '9') →
      digitsVal (xs ++ ys) a = digitsVal ys (digitsVal xs a) := by
  induction xs with
  | nil => intro a _; rfl
  | cons c r ih =>
    intro a hd
    obtain ⟨h1, h2⟩ := hd c (List.mem_cons_self c r)
    rw [List.cons_append, digitsVal, if_pos ⟨h1, h2⟩, digitsVal, if_pos ⟨h1, h2⟩]
    exact ih _ (fun d h => hd d (List.mem_cons_of_mem c h))

theorem natDecAux_val : ∀ (fuel n : Nat), n < fuel → ∀ a,
    digitsVal (natDecAux fuel n) a = a * 10 ^ (natDecAux fuel n).length + n := by
  intro fuel
  induction fuel with
  | zero => intro n h; omega
  | succ f ih =>
    intro n hn a
    by_cases h10 : n < 10
    · rw [natDecAux, if_pos h10]
      obtain ⟨d1, d2, d3, _⟩ := digit_char_facts n h10
      rw [digitsVal, if_pos ⟨d1, d2⟩, digitsVal]
      simp only [List.length_singleton, pow_one]
      omega
    · rw [natDecAux, if_neg h10]
      have hdiv : n / 10 < f := by
        have h1 : n / 10 < n := Nat.div_lt_self (by omega) (by omega)
        omega
      have hdigits : ∀ c ∈ natDecAux f (n / 10), '0' ≤ c ∧ c ≤ '9' := by
        intro c hc
        have := (natDecAux_spec f (n / 10) hdiv).1 c hc
        exact ⟨this.1, this.2.1⟩
      rw [digitsVal_append _ _ a hdigits]
      obtain ⟨d1, d2, d3, _⟩ := digit_char_facts (n % 10) (Nat.mod_lt n (by omega))
      rw [digitsVal, if_pos ⟨d1, d2⟩, digitsVal, ih (n / 10) hdiv a]
      simp only [List.length_append, List.length_singleton]
      rw [d3]
      have : 10 ^ ((natDecAux f (n / 10)).length + 1)
          = 10 ^ (natDecAux f (n / 10)).length * 10 := by ring
      rw [this]
      have hmod := Nat.div_add_mod n 10
      ring_nf
      omega

theorem digitsVal_natDec (n : Nat) : digitsVal (natDec n) 0 = n := by
  have := natDecAux_val (n + 1) n (Nat.lt_succ_self n) 0
  rw [show natDec n = natDecAux (n + 1) n from rfl, this, Nat.zero_mul, Nat.zero_add]

theorem dropWhile_natDec (n : Nat) :
    (natDec n).dropWhile (fun c => c = ' ' ∨ c = '\t') = natDec n := by
  cases h : natDec n with
  | nil => rfl
  | cons c r =>
    have hc := natDec_chars n c (h ▸ List.mem_cons_self c r)
    rw [List.dropWhile_cons, if_neg (by simp [hc.2.2.1, hc.2.2.2.1])]

theorem atoiI_natDec (n : Nat) : atoiI (natDec n) = (n : Int) := by
  obtain ⟨c, r, hcr⟩ : ∃ c r, natDec n = c :: r := by
    cases h : natDec n with
    | nil => exact absurd h (natDec_ne_nil n)
    | cons c r => exact ⟨c, r, rfl⟩
  have hc := natDec_chars n c (hcr ▸ List.mem_cons_self c r)
  rw [atoiI, dropWhile_natDec n, hcr]
  dsimp only
  rw [if_neg hc.2.2.2.2.1, if_neg hc.2.2.2.2.2.1, ← hcr, digitsVal_natDec]

theorem atoiI_intDec (v : Int) : atoiI (intDec v) = v := by
  rw [intDec]
  by_cases hv : v < 0
  · rw [if_pos hv, atoiI]
    have hdw : ('-' :: natDec v.natAbs).dropWhile (fun c => c = ' ' ∨ c = '\t')
        = '-' :: natDec v.natAbs := by
      rw [List.dropWhile_cons, if_neg (by decide)]
    rw [hdw]
    dsimp only
    rw [if_pos rfl, digitsVal_natDec]
    omega
  · rw [if_neg hv, atoiI_natDec]
    omega

theorem strtoulN_natDec (n : Nat) : strtoulN (natDec n) = n := by
  rw [strtoulN, dropWhile_natDec n, digitsVal_natDec]

theorem natDecAux_len : ∀ (fuel n k : Nat), n < fuel → n < 10 ^ k → 1 ≤ k →
    (natDecAux fuel n).length ≤ k := by
  intro fuel
  induction fuel with
  | zero => intro n k h; omega
  | succ f ih =>
    intro n k hn hk hk1
    by_cases h10 : n < 10
    · rw [natDecAux, if_pos h10]
      simpa using hk1
    · rw [natDecAux, if_neg h10]
      have hk2 : 2 ≤ k := by
        by_contra hlt
        have : k = 1 := by omega
        subst this
        simp only [pow_one] at hk
        omega
      have hdiv : n / 10 < f := by
        have h1 : n / 10 < n := Nat.div_lt_self (by omega) (by omega)
        omega
      have hpow : n / 10 < 10 ^ (k - 1) := by
        have hs : 10 ^ k = 10 ^ (k - 1) * 10 := by
          rw [← pow_succ]
          congr 1
          omega
        rw [hs] at hk
        exact Nat.div_lt_of_lt_mul (by omega)
      have := ih (n / 10) (k - 1) hdiv hpow (by omega)
      simp only [List.length_append, List.length_singleton]
      omega

theorem natDec_len (n k : Nat) (h : n < 10 ^ k) (hk : 1 ≤ k) :
    (natDec n).length ≤ k :=
  natDecAux_len (n + 1) n k (Nat.lt_succ_self n) h hk

theorem splitEq1_key : ∀ (k v : List Char), '=' ∉ k →
    splitEq1 (k ++ '=' :: v) = some (k, v) := by
  intro k
  induction k with
  | nil => intro v _; rw [List.nil_append, splitEq1, if_pos rfl]
  | cons c r ih =>
    intro v h
    simp only [List.mem_cons, not_or] at h
    rw [List.cons_append, splitEq1, if_neg (fun he => h.1 he.symm), ih v h.2]
    rfl

theorem findIdx?_basename :
    ∀ (env : List (List Char)) (i : Nat), i < env.length →
      (env.map basenameOf).Nodup →
      env.findIdx? (fun p => basenameOf p = basenameOf ((env.get? i).getD [])) = some i := by
  intro env
  induction env with
  | nil => intro i hi; simp at hi
  | cons p ps ih =>
    intro i hi hnd
    simp only [List.map_cons, List.nodup_cons] at hnd
    cases i with
    | zero =>
      rw [List.findIdx?_cons, if_pos (by simp)]
    | succ j =>
      have hj : j < ps.length := by simpa using hi
      have hmem : (ps.get? j).getD [] ∈ ps := by
        rw [List.get?_eq_getElem?, List.getElem?_eq_getElem hj]
        exact List.getElem_mem hj
      have hneq : ¬ (basenameOf p = basenameOf (((p :: ps).get? (j + 1)).getD [])) := by
        simp only [List.get?_cons_succ]
        intro he
        exact hnd.1 (he ▸ List.mem_map_of_mem basenameOf hmem)
      rw [List.findIdx?_cons, if_neg (by simpa using hneq), List.findIdx?_succ]
      have := ih j hj hnd.2
      simp only [List.get?_cons_succ]
      rw [this]
      rfl

set_option maxRecDepth 2000 in
theorem apiCodes_findIdx : ∀ i, i < 9 →
    apiCodes.findIdx? (fun c => (apiCodes.get? i).getD [] = c) = some i := by decide

theorem loadLine_verse_file (env : List (List Char)) (st : SettingsSt) (val : List Char) :
    loadLine env st ("verse_file=".toList ++ val)
      = (match env.findIdx? (fun p => basenameOf p = val) with
         | some i => { st with vfile_sel := i }
         | none => st) := by
  rw [show ("verse_file=".toList ++ val) = ("verse_file".toList ++ '=' :: val) from rfl]
  rw [loadLine, splitEq1_key _ val (by decide)]
  dsimp only
  rw [if_pos rfl]

theorem loadLine_font_size (env : List (List Char)) (st : SettingsSt) (val : List Char) :
    loadLine env st ("font_size=".toList ++ val)
      = (if 0 ≤ atoiI val ∧ atoiI val < 5
         then { st with font_choice := (atoiI val).toNat } else st) := by
  rw [show ("font_size=".toList ++ val) = ("font_size".toList ++ '=' :: val) from rfl]
  rw [loadLine, splitEq1_key _ val (by decide)]
  dsimp only
  rw [if_neg (by decide)]
  rw [if_pos rfl]

theorem loadLine_api_trans (env : List (List Char)) (st : SettingsSt) (val : List Char) :
    loadLine env st ("api_trans=".toList ++ val)
      = (match apiCodes.findIdx? (fun c => val = c) with
         | some i => { st with api_trans_sel := i }
         | none => st) := by
  rw [show ("api_trans=".toList ++ val) = ("api_trans".toList ++ '=' :: val) from rfl]
  rw [loadLine, splitEq1_key _ val (by decide)]
  dsimp only
  rw [if_neg (by decide)]
  rw [if_neg (by decide)]
  rw [if_pos rfl]

theorem loadLine_api_book (env : List (List Char)) (st : SettingsSt) (val : List Char) :
    loadLine env st ("api_book=".toList ++ val)
      = (if 0 ≤ atoiI val ∧ atoiI val < 66
         then { st with api_book_sel := (atoiI val).toNat } else st) := by
  rw [show ("api_book=".toList ++ val) = ("api_book".toList ++ '=' :: val) from rfl]
  rw [loadLine, splitEq1_key _ val (by decide)]
  dsimp only
  rw [if_neg (by decide)]
  rw [if_neg (by decide)]
  rw [if_neg (by decide)]
  rw [if_pos rfl]

theorem loadLine_api_chapter (env : List (List Char)) (st : SettingsSt) (val : List Char) :
    loadLine env st ("api_chapter=".toList ++ val)
      = (if 1 ≤ atoiI val ∧ atoiI val ≤ 150
         then { st with api_chapter_sel := (atoiI val).toNat } else st) := by
  rw [show ("api_chapter=".toList ++ val) = ("api_chapter".toList ++ '=' :: val) from rfl]
  rw [loadLine, splitEq1_key _ val (by decide)]
  dsimp only
  rw [if_neg (by decide)]
  rw [if_neg (by decide)]
  rw [if_neg (by decide)]
  rw [if_neg (by decide)]
  rw [if_pos rfl]

theorem loadLine_api_verse (env : List (List Char)) (st : SettingsSt) (val : List Char) :
    loadLine env st ("api_verse=".toList ++ val)
      = (if 1 ≤ atoiI val ∧ atoiI val ≤ 176
         then { st with api_verse_sel := (atoiI val).toNat } else st) := by
  rw [show ("api_verse=".toList ++ val) = ("api_verse".toList ++ '=' :: val) from rfl]
  rw [loadLine, splitEq1_key _ val (by decide)]
  dsimp only
  rw [if_neg (by decide)]
  rw [if_neg (by decide)]
  rw [if_neg (by decide)]
  rw [if_neg (by decide)]
  rw [if_neg (by decide)]
  rw [if_pos rfl]

theorem loadLine_daily_idx (env : List (List Char)) (st : SettingsSt) (val : List Char) :
    loadLine env st ("daily_idx=".toList ++ val)
      = (if 0 ≤ atoiI val ∧ atoiI val < 600
         then { st with daily_verse_idx := (atoiI val).toNat } else st) := by
  rw [show ("daily_idx=".toList ++ val) = ("daily_idx".toList ++ '=' :: val) from rfl]
  rw [loadLine, splitEq1_key _ val (by decide)]
  dsimp only
  rw [if_neg (by decide)]
  rw [if_neg (by decide)]
  rw [if_neg (by decide)]
  rw [if_neg (by decide)]
  rw [if_neg (by decide)]
  rw [if_neg (by decide)]
  rw [if_pos rfl]

theorem loadLine_daily_day (env : List (List Char)) (st : SettingsSt) (val : List Char) :
    loadLine env st ("daily_day=".toList ++ val)
      = { st with daily_verse_day := strtoulN val % 2 ^ 32 } := by
  rw [show ("daily_day=".toList ++ val) = ("daily_day".toList ++ '=' :: val) from rfl]
  rw [loadLine, splitEq1_key _ val (by decide)]
  dsimp only
  rw [if_neg (by decide)]
  rw [if_neg (by decide)]
  rw [if_neg (by decide)]
  rw [if_neg (by decide)]
  rw [if_neg (by decide)]
  rw [if_neg (by decide)]
  rw [if_neg (by decide)]
  rw [if_pos rfl]

theorem settingsLines_nil (fuel : Nat) : settingsLines fuel [] = [] := by
  cases fuel <;> rfl

theorem settingsLines_join :
    ∀ (ls : List (List Char)) (fuel : Nat),
      (∀ l ∈ ls, l ≠ [] ∧ l.length < 95 ∧ '\n' ∉ l ∧ '\r' ∉ l) →
      ls.length < fuel →
      settingsLines fuel (joinLines ls) = ls := by
  intro ls
  induction ls with
  | nil =>
    intro fuel _ _
    rw [joinLines_nil, settingsLines_nil]
  | cons l ls ih =>
    intro fuel hg hf
    obtain ⟨hne, hlen, hn, hr⟩ := hg l (List.mem_cons_self l ls)
    cases fuel with
    | zero => simp at hf
    | succ f =>
      rw [joinLines_cons, settingsLines]
      rw [readLine_cons_nl 95 l 0 (joinLines ls) hn hr (by omega)]
      have hle : l.isEmpty = false := by
        cases l with
        | nil => exact absurd rfl hne
        | cons a t => rfl
      dsimp only
      rw [hle]
      simp only [Bool.false_eq_true, if_false]
      rw [ih f (fun x hx => hg x (List.mem_cons_of_mem l hx)) (by simp at hf; omega)]

theorem settings_save_lines (env : List (List Char)) (s : SettingsSt) :
    settings_save env s = joinLines
      ["verse_file=".toList ++ basenameOf ((env.get? s.vfile_sel).getD []),
       "font_size=".toList ++ natDec s.font_choice,
       "api_trans=".toList ++ (apiCodes.get? s.api_trans_sel).getD [],
       "api_book=".toList ++ natDec s.api_book_sel,
       "api_chapter=".toList ++ natDec s.api_chapter_sel,
       "api_verse=".toList ++ natDec s.api_verse_sel,
       "daily_idx=".toList ++ natDec s.daily_verse_idx,
       "daily_day=".toList ++ natDec s.daily_verse_day] := by
  simp [settings_save, joinLines]

/-- C7: with all in-memory settings in their valid ranges (and corpus
basenames distinct and short enough for the line buffers),
`settings_save` followed by `settings_load` into any fresh state
reproduces every previously-set value, the corpus filename mapped back
to its slot; and a persisted value outside its valid range — a numeric
value out of range, an unknown corpus filename, an unknown translation
code — is ignored, leaving the target state completely untouched. -/
theorem claim_C7 (env : List (List Char)) (s d : SettingsSt)
    (hsel : s.vfile_sel < env.length)
    (hnd : (env.map basenameOf).Nodup)
    (hfn_len : (basenameOf ((env.get? s.vfile_sel).getD [])).length ≤ 83)
    (hfn_n : '\n' ∉ basenameOf ((env.get? s.vfile_sel).getD []))
    (hfn_r : '\r' ∉ basenameOf ((env.get? s.vfile_sel).getD []))
    (hfont : s.font_choice < 5)
    (htrans : s.api_trans_sel < 9)
    (hbook : s.api_book_sel < 66)
    (hch1 : 1 ≤ s.api_chapter_sel) (hch2 : s.api_chapter_sel ≤ 150)
    (hv1 : 1 ≤ s.api_verse_sel) (hv2 : s.api_verse_sel ≤ 176)
    (hdi : s.daily_verse_idx < 600)
    (hdd : s.daily_verse_day < 2 ^ 32) :
    settings_load env (settings_save env s) d = s ∧
    (∀ v : Int, ¬(0 ≤ v ∧ v < 5) →
      loadLine env d ("font_size=".toList ++ intDec v) = d) ∧
    (∀ v : Int, ¬(0 ≤ v ∧ v < 66) →
      loadLine env d ("api_book=".toList ++ intDec v) = d) ∧
    (∀ v : Int, ¬(1 ≤ v ∧ v ≤ 150) →
      loadLine env d ("api_chapter=".toList ++ intDec v) = d) ∧
    (∀ v : Int, ¬(1 ≤ v ∧ v ≤ 176) →
      loadLine env d ("api_verse=".toList ++ intDec v) = d) ∧
    (∀ v : Int, ¬(0 ≤ v ∧ v < 600) →
      loadLine env d ("daily_idx=".toList ++ intDec v) = d) ∧
    (∀ val : List Char, (∀ p ∈ env, basenameOf p ≠ val) →
      loadLine env d ("verse_file=".toList ++ val) = d) ∧
    (∀ val : List Char, (∀ c ∈ apiCodes, val ≠ c) →
      loadLine env d ("api_trans=".toList ++ val) = d) := by
  have hdl : ∀ n : Nat, n < 10 ^ 10 → (natDec n).length ≤ 10 :=
    fun n h => natDec_len n 10 h (by norm_num)
  have hndec : ∀ n : Nat, natDec n ≠ [] ∧ '\n' ∉ natDec n ∧ '\r' ∉ natDec n := by
    intro n
    refine ⟨natDec_ne_nil n, fun h => ?_, fun h => ?_⟩
    · exact (natDec_chars n _ h).2.2.2.2.2.2.1 rfl
    · exact (natDec_chars n _ h).2.2.2.2.2.2.2.1 rfl
  have hcode : ∀ i, i < 9 → ((apiCodes.get? i).getD []) ≠ [] ∧
      ((apiCodes.get? i).getD []).length ≤ 6 ∧
      '\n' ∉ ((apiCodes.get? i).getD []) ∧ '\r' ∉ ((apiCodes.get? i).getD []) := by decide
  refine ⟨?_, ?_, ?_, ?_, ?_, ?_, ?_, ?_⟩
  · -- round trip
    rw [settings_load, settings_save_lines]
    rw [settingsLines_join _ _ ?hgood ?hfuel]
    case hfuel => exact Nat.lt_succ_of_le (length_le_joinLines _)
    case hgood =>
      intro l hl
      have hnum : ∀ (key : List Char) (n : Nat), key ≠ [] → key.length ≤ 12 →
          '\n' ∉ key → '\r' ∉ key → n < 10 ^ 10 →
          key ++ natDec n ≠ [] ∧ (key ++ natDec n).length < 95 ∧
            '\n' ∉ key ++ natDec n ∧ '\r' ∉ key ++ natDec n := by
        intro key n h1 h2 h3 h4 h5
        obtain ⟨g1, g2, g3⟩ := hndec n
        have := hdl n h5
        refine ⟨by simp [h1], by simp only [List.length_append]; omega, ?_, ?_⟩
        · intro hm
          rcases List.mem_append.mp hm with h | h
          · exact h3 h
          · exact g2 h
        · intro hm
          rcases List.mem_append.mp hm with h | h
          · exact h4 h
          · exact g3 h
      simp only [List.mem_cons, List.not_mem_nil, or_false] at hl
      rcases hl with rfl | rfl | rfl | rfl | rfl | rfl | rfl | rfl
      · refine ⟨by simp, ?_, ?_, ?_⟩
        · simp only [List.length_append]
          have : ("verse_file=".toList).length = 11 := by decide
          omega
        · intro hm
          rcases List.mem_append.mp hm with h | h
          · revert h; decide
          · exact hfn_n h
        · intro hm
          rcases List.mem_append.mp hm with h | h
          · revert h; decide
          · exact hfn_r h
      · exact hnum _ _ (by decide) (by decide) (by decide) (by decide) (by omega)
      · obtain ⟨g1, g2, g3, g4⟩ := hcode s.api_trans_sel htrans
        refine ⟨by simp, ?_, ?_, ?_⟩
        · simp only [List.length_append]
          have : ("api_trans=".toList).length = 10 := by decide
          omega
        · intro hm
          rcases List.mem_append.mp hm with h | h
          · revert h; decide
          · exact g3 h
        · intro hm
          rcases List.mem_append.mp hm with h | h
          · revert h; decide
          · exact g4 h
      · exact hnum _ _ (by decide) (by decide) (by decide) (by decide) (by omega)
      · exact hnum _ _ (by decide) (by decide) (by decide) (by decide) (by omega)
      · exact hnum _ _ (by decide) (by decide) (by decide) (by decide) (by omega)
      · exact hnum _ _ (by decide) (by decide) (by decide) (by decide) (by omega)
      · refine hnum _ _ (by decide) (by decide) (by decide) (by decide) ?_
        have : (2 : Nat) ^ 32 < 10 ^ 10 := by norm_num
        omega
    simp only [List.foldl_cons, List.foldl_nil]
    rw [loadLine_verse_file, findIdx?_basename env s.vfile_sel hsel hnd]
    rw [loadLine_font_size, loadLine_api_trans, apiCodes_findIdx s.api_trans_sel htrans,
      loadLine_api_book, loadLine_api_chapter, loadLine_api_verse, loadLine_daily_idx,
      loadLine_daily_day]
    simp only [atoiI_natDec, strtoulN_natDec]
    rw [if_pos ⟨Int.natCast_nonneg _, by exact_mod_cast hdi⟩]
    rw [if_pos ⟨by exact_mod_cast hv1, by exact_mod_cast hv2⟩]
    rw [if_pos ⟨by exact_mod_cast hch1, by exact_mod_cast hch2⟩]
    rw [if_pos ⟨Int.natCast_nonneg _, by exact_mod_cast hbook⟩]
    rw [if_pos ⟨Int.natCast_nonneg _, by exact_mod_cast hfont⟩]
    simp only [Int.toNat_natCast, Nat.mod_eq_of_lt hdd]
  · intro v hv
    rw [loadLine_font_size, atoiI_intDec, if_neg hv]
  · intro v hv
    rw [loadLine_api_book, atoiI_intDec, if_neg hv]
  · intro v hv
    rw [loadLine_api_chapter, atoiI_intDec, if_neg hv]
  · intro v hv
    rw [loadLine_api_verse, atoiI_intDec, if_neg hv]
  · intro v hv
    rw [loadLine_daily_idx, atoiI_intDec, if_neg hv]
  · intro val hval
    rw [loadLine_verse_file]
    rw [List.findIdx?_eq_none_iff.mpr (fun p hp => by simp [hval p hp])]
  · intro val hval
    rw [loadLine_api_trans]
    rw [List.findIdx?_eq_none_iff.mpr (fun c hc => by simp [hval c hc])]

/-- Witness for C7 with two corpora and a fully valid settings state. -/
theorem claim_C7_witness :
    ((⟨1, 2, 3, 18, 40, 22, 100, 77⟩ : SettingsSt).vfile_sel
        < ["/d/verses_en.txt".toList, "/d/verses_de.txt".toList].length) ∧
    ((["/d/verses_en.txt".toList, "/d/verses_de.txt".toList].map basenameOf).Nodup) ∧
    settings_load ["/d/verses_en.txt".toList, "/d/verses_de.txt".toList]
        (settings_save ["/d/verses_en.txt".toList, "/d/verses_de.txt".toList]
          ⟨1, 2, 3, 18, 40, 22, 100, 77⟩)
        ⟨0, 0, 0, 0, 1, 1, 0, 0⟩
      = ⟨1, 2, 3, 18, 40, 22, 100, 77⟩ :=
  ⟨by decide, by decide,
    (claim_C7 ["/d/verses_en.txt".toList, "/d/verses_de.txt".toList]
      ⟨1, 2, 3, 18, 40, 22, 100, 77⟩ ⟨0, 0, 0, 0, 1, 1, 0, 0⟩
      (by decide) (by decide) (by decide) (by decide) (by decide) (by decide) (by decide)
      (by decide) (by decide) (by decide) (by decide) (by decide) (by decide)
      (by norm_num)).1⟩

/-- Witness for C10 on the line `bogus` with one verse indexed. -/
theorem claim_C10_witness :
    ("bogus".toList ≠ []) ∧
    (∀ c ∈ "bogus".toList, ¬('0' ≤ c ∧ c ≤ '9') ∧ c ≠ '\n' ∧ c ≠ '\r') ∧ 0 < 1 ∧
    bmarksLoad ("bogus".toList ++ ['\n']) 1 = [0] :=
  ⟨by decide, by decide, by decide,
    claim_C10 "bogus".toList 1 (by decide) (by decide) (by decide)⟩

end BibleViewer
